import Mathlib

/-!
Formal model of the wove concurrent task orchestrator.

The definitions below are a shallow embedding of the repository sources:
  * src/wove/context.py   (WoveContextManager: graph building, tiered execution,
                           retry/timeout wrapper, context exit protocol)
  * src/wove/helpers.py   (flatten, fold)
Task names are strings, task callables are modelled as abstract behaviours
(functions from bound keyword arguments and attempt index to an outcome),
and the asyncio layer is modelled by an explicit scheduler observation:
for each tier, the name of the sub-invocation that completes first.
-/

namespace Wove

/-- Python values carried through the orchestrator.  Task payloads are
completely opaque to the engine, so a small universe of scalars suffices
for the model; collections appear only as the map sources of mapped tasks
and are represented by lists of values there. -/
inductive Value where
  | int (n : Int)
  | str (s : String)
  | unit
  deriving DecidableEq

/-- Python exceptions raised by the orchestrator or by task bodies.
The constructors mirror the exception classes appearing in context.py
(NameError, TypeError, RuntimeError, ValueError, asyncio.TimeoutError,
asyncio.CancelledError) plus an abstract constructor for exceptions
raised by user task bodies. -/
inductive Exc where
  | nameError (msg : String)
  | typeError (msg : String)
  | runtimeError (msg : String)
  | valueError (msg : String)
  | timeoutError
  | cancelledError
  | contextError
  | recursionLimitError
  | user (tag : String)
  deriving DecidableEq

/-- Result and timing of one awaited invocation of a task callable.
The duration field abstracts wall-clock time: it is only compared with a
configured timeout by the model of asyncio.wait_for. -/
structure AttemptBehavior where
  duration : Nat
  res : Except Exc Value

/-- Map source of a mapped task: either the name of another task (a string in
`@w.do("other")`) or a literal collection (`@w.do([1, 2, 3])`). -/
inductive MapSource where
  | ofName (src : String)
  | ofList (items : List Value)

/-- One entry of the WoveContextManager._tasks OrderedDict.
The params field is the formal parameter name list of the callable as
returned by inspect.signature (parameter names of one callable are distinct).
The seed field records the is_seed condition of context.py line 133: the
name was supplied as an initial value and is not in definition order.
The behavior field is the abstract body of the callable: given the bound
keyword arguments and the attempt index, it yields the result of awaiting
the produced coroutine once. -/
structure TaskInfo where
  params : List String
  mapSource : Option MapSource
  seed : Bool
  retries : Nat
  timeout : Option Nat
  behavior : List (String × Value) → Nat → AttemptBehavior

/-- The _tasks OrderedDict: an association list in insertion order. -/
abbrev Tasks := List (String × TaskInfo)

/-- Association-list lookup with decidable string keys. -/
def alookup {α : Type} : List (String × α) → String → Option α
  | [], _ => none
  | kv :: rest, k => if kv.1 = k then some kv.2 else alookup rest k

/-- Lookup returning a default value. -/
def alookupD {α : Type} (m : List (String × α)) (k : String) (d : α) : α :=
  (alookup m k).getD d

/-! ### Graph builder: dependency sets (context.py lines 129-153) -/

/-- Dependency computation for one task, mirroring the body of the per-task
loop in _build_graph_and_plan (context.py lines 131-153).  Returns the
dependency set (as a list without duplicates) together with the item
parameter for mapped tasks.  Python set operations are rendered as list
filters over the (duplicate-free) parameter list; the set-add of the map
source name is an append-if-absent. -/
def depsOfTask (allNames : List String) (name : String) (info : TaskInfo) :
    Except Exc (List String × Option String) :=
  if info.seed then .ok ([], none)
  else
    match info.mapSource with
    | none => .ok (info.params.filter (fun p => p ∈ allNames), none)
    | some (.ofName srcName) =>
      if srcName ∈ allNames then
        if (info.params.filter (fun p => p ∉ allNames)).length ≠ 1 then
          .error (.typeError ("Mapped task " ++ name ++
            " must have exactly one parameter that is not a dependency."))
        else
          .ok ((if srcName ∈ info.params.filter (fun p => p ∈ allNames)
                then info.params.filter (fun p => p ∈ allNames)
                else info.params.filter (fun p => p ∈ allNames) ++ [srcName]),
               (info.params.filter (fun p => p ∉ allNames)).head?)
      else
        .error (.nameError ("Mapped task " ++ name ++ " depends on " ++ srcName ++
          ", but no task with that name was found."))
    | some (.ofList _) =>
      if (info.params.filter (fun p => p ∉ allNames)).length ≠ 1 then
        .error (.typeError ("Mapped task " ++ name ++
          " must have exactly one parameter that is not a dependency."))
      else
        .ok (info.params.filter (fun p => p ∈ allNames),
             (info.params.filter (fun p => p ∉ allNames)).head?)

/-- The dependencies dict: one entry per task, in _tasks order, plus the
item_param assignments recorded on mapped task infos. -/
def buildDeps (allNames : List String) : Tasks →
    Except Exc (List (String × List String) × List (String × String))
  | [] => .ok ([], [])
  | (name, info) :: rest =>
    match depsOfTask allNames name info with
    | .error e => .error e
    | .ok (ds, ip) =>
      match buildDeps allNames rest with
      | .error e => .error e
      | .ok (restDeps, restIps) =>
        .ok ((name, ds) :: restDeps,
             match ip with
             | some p => (name, p) :: restIps
             | none => restIps)

/-! ### Graph builder: dependents map (context.py lines 155-159) -/

/-- Add name to the dependents bucket of key p (a no-op when p is not a key,
mirroring the `if param in dependents` guard; the set-add is an
append-if-absent). -/
def addDependent (m : List (String × List String)) (p name : String) :
    List (String × List String) :=
  m.map (fun kv =>
    if kv.1 = p then (kv.1, if name ∈ kv.2 then kv.2 else kv.2 ++ [name]) else kv)

/-- The dependents dict: initialised with an empty bucket per task name, then
populated by scanning the dependencies dict in order. -/
def mkDependents (names : List String) (deps : List (String × List String)) :
    List (String × List String) :=
  deps.foldl (fun acc nd => nd.2.foldl (fun acc2 p => addDependent acc2 p nd.1) acc)
    (names.map (fun n => (n, ([] : List String))))

/-! ### Kahn topological sort and tiering (context.py lines 161-198) -/

/-- Decrement step shared by the sorting loop and the tier loop: for every
dependent d of the processed task t, decrement the in-degree of d and
append d to the queue when the decremented value is exactly zero.
Degrees live in Int, as Python ints. -/
def processTask (dependents : List (String × List String)) (t : String)
    (st : (String → Int) × List String) : (String → Int) × List String :=
  (alookupD dependents t []).foldl
    (fun s d =>
      (fun m => if m = d then s.1 m - 1 else s.1 m,
       if s.1 d - 1 = 0 then s.2 ++ [d] else s.2))
    st

/-- Sequential Kahn sort (context.py lines 167-176): pop one task, record it,
decrement its dependents.  The fuel argument bounds the iteration count; a
task enters the queue at most once (degrees only decrease and a task is
enqueued only when its degree becomes exactly zero), so fuel equal to the
number of tasks plus one is enough for the loop to reach its exit condition
exactly as the Python while-loop does. -/
def sortLoop (dependents : List (String × List String)) :
    Nat → List String → (String → Int) → List String → List String
  | 0, _, _, sorted => sorted
  | _ + 1, [], _, sorted => sorted
  | fuel + 1, t :: q, deg, sorted =>
    sortLoop dependents fuel (processTask dependents t (deg, q)).2
      (processTask dependents t (deg, q)).1 (sorted ++ [t])

/-- Tier construction (context.py lines 180-191): the whole queue becomes one
tier, then every member is processed, collecting the next queue. -/
def tierLoop (dependents : List (String × List String)) :
    Nat → List String → (String → Int) → List (List String) → List (List String)
  | 0, _, _, tiers => tiers
  | _ + 1, [], _, tiers => tiers
  | fuel + 1, t :: q, deg, tiers =>
    tierLoop dependents fuel
      ((t :: q).foldl (fun s u => processTask dependents u s) (deg, ([] : List String))).2
      ((t :: q).foldl (fun s u => processTask dependents u s) (deg, ([] : List String))).1
      (tiers ++ [t :: q])

/-- The execution plan assembled by _build_graph_and_plan. -/
structure Plan where
  dependencies : List (String × List String)
  dependents : List (String × List String)
  tiers : List (List String)
  sortedTasks : List String
  itemParams : List (String × String)
  deriving DecidableEq

/-- Message of the cycle error raised at context.py line 178. -/
def cycleMsg : String := "Circular dependency detected."

/-- Full _build_graph_and_plan (context.py lines 124-198): compute dependency
sets, the dependents map and in-degrees, run the sequential Kahn sort, fail
when it did not place every task, then build the tiers. -/
def buildPlan (tasks : Tasks) : Except Exc Plan :=
  let allNames := tasks.map (fun t => t.1)
  match buildDeps allNames tasks with
  | .error e => .error e
  | .ok (deps, ips) =>
    let dependents := mkDependents allNames deps
    let deg0 : String → Int := fun n => ((alookupD deps n []).length : Int)
    let queue0 := allNames.filter (fun n => deg0 n = 0)
    let sorted := sortLoop dependents (tasks.length + 1) queue0 deg0 []
    if sorted.length ≠ tasks.length then .error (.runtimeError cycleMsg)
    else
      let tiers := tierLoop dependents (tasks.length + 1) queue0 deg0 []
      .ok ⟨deps, dependents, tiers, sorted, ips⟩

/-! ### Retry and timeout wrapper (context.py lines 204-220) -/

/-- Model of awaiting one attempt: asyncio.wait_for raises TimeoutError when
a timeout is configured and the attempt takes longer, otherwise the result
of the coroutine itself is returned (context.py lines 213-217). -/
def runAttempt (timeout : Option Nat) (a : AttemptBehavior) : Except Exc Value :=
  match timeout with
  | some t => if t < a.duration then .error .timeoutError else a.res
  | none => a.res

/-- Body of _retry_timeout_wrapper from attempt index i with r attempts left
after the current one: each loop iteration invokes the callable once; a
success returns immediately; when the last attempt fails its exception is
raised (last_exception).  Returns the result together with the number of
invocations of the callable. -/
def retryFrom (timeout : Option Nat) (attempt : Nat → AttemptBehavior) :
    Nat → Nat → Except Exc Value × Nat
  | i, 0 => (runAttempt timeout (attempt i), 1)
  | i, r + 1 =>
    match runAttempt timeout (attempt i) with
    | .ok v => (.ok v, 1)
    | .error _ =>
      let rest := retryFrom timeout attempt (i + 1) r
      (rest.1, rest.2 + 1)

/-- The retry wrapper: range(retries + 1) attempts starting at attempt 0,
with the same bound arguments baked into the attempt function. -/
def retryRun (retries : Nat) (timeout : Option Nat) (attempt : Nat → AttemptBehavior) :
    Except Exc Value × Nat :=
  retryFrom timeout attempt 0 retries

/-! ### Tiered executor (context.py lines 240-289) -/

/-- Argument binding (context.py line 250): one keyword argument per recorded
dependency name, looked up in the result store.  Prior tiers are complete
when this runs, so every dependency is present; a missing name is dropped
(Python would raise KeyError, which cannot happen on plans produced by
buildPlan). -/
def bindArgs (store : List (String × Value)) (deps : List String) :
    List (String × Value) :=
  deps.filterMap (fun d => (alookup store d).map (fun v => (d, v)))

/-- Python call semantics for task_func(**args): every formal parameter must
be bound and every keyword must be a formal parameter, otherwise the call
raises TypeError.  Only then does the task body run. -/
def callTask (info : TaskInfo) (args : List (String × Value)) (i : Nat) :
    AttemptBehavior :=
  if info.params.all (fun p => (alookup args p).isSome) &&
     args.all (fun kv => decide (kv.1 ∈ info.params)) then
    info.behavior args i
  else
    ⟨0, .error (.typeError "missing or unexpected keyword argument")⟩

/-- Fallback info for a name that is not a registered task (unreachable on
plans produced by buildPlan). -/
def infoDefault : TaskInfo :=
  ⟨[], none, false, 0, none, fun _ _ => ⟨0, .error (.runtimeError "unknown task")⟩⟩

/-- Complete outcome of one task in a tier: arguments are bound from the
result store snapshot taken when the tier is launched, then the callable is
run under the retry/timeout wrapper.  The second component counts the
invocations of the callable. -/
def taskOutcome (info : TaskInfo) (deps : List String)
    (store : List (String × Value)) : Except Exc Value × Nat :=
  let args := bindArgs store deps
  retryRun info.retries info.timeout (fun i => callTask info args i)

instance {ε α : Type} [DecidableEq ε] [DecidableEq α] : DecidableEq (Except ε α)
  | .ok a, .ok b =>
    if h : a = b then isTrue (by rw [h]) else isFalse (fun hc => h (Except.ok.inj hc))
  | .error a, .error b =>
    if h : a = b then isTrue (by rw [h]) else isFalse (fun hc => h (Except.error.inj hc))
  | .ok _, .error _ => isFalse (fun hc => Except.noConfusion hc)
  | .error _, .ok _ => isFalse (fun hc => Except.noConfusion hc)

/-- Observable state of one executor run.  launched records every
asyncio.create_task call (all_created_tasks); finished the tasks that ran
to completion (with a value or their own exception); cancelled the tasks
that received cancel() while still pending; ackExcs the values collected by
asyncio.gather(..., return_exceptions=True) during the drain, which the
code discards; error the exception propagated out of the tier loop. -/
structure ExecOut where
  store : List (String × Value)
  launched : List String
  finished : List String
  cancelled : List String
  ackExcs : List (String × Except Exc Value)
  error : Option Exc
  deriving DecidableEq

/-- Result-storing loop over a completed tier (context.py lines 278-279):
append results in tier order until a future raises; results stored before
the failing one remain in the store. -/
def storeTier (out : String → Except Exc Value) (store : List (String × Value)) :
    List String → List (String × Value) × Option Exc
  | [] => (store, none)
  | t :: rest =>
    match out t with
    | .ok v => storeTier out (store ++ [(t, v)]) rest
    | .error e => (store, some e)

/-- Name of the future observed first by the FIRST_COMPLETED wait of a tier:
the scheduler observation when it names a tier member, the first tier
member otherwise (making the model total). -/
def firstOf (sched : List String) (tier : List String) : String :=
  if sched.headD "" ∈ tier then sched.headD "" else tier.headD ""

/-- Outcome of awaiting the future of one tier member, with arguments bound
from the store snapshot taken at tier launch. -/
def tierOut (tasks : Tasks) (depsM : List (String × List String))
    (store : List (String × Value)) : String → Except Exc Value :=
  fun t => (taskOutcome (alookupD tasks t infoDefault) (alookupD depsM t []) store).1

/-- The tier loop of __aexit__ (context.py lines 244-289).  Concurrency is
determinised by sched: for each tier, the name of the future observed first
by asyncio.wait(..., return_when=FIRST_COMPLETED) — the model takes the
done set of that wait to be that single earliest completer.  If it failed,
the code cancels every created-but-unfinished task, drains all created
tasks with gather(return_exceptions=True) and re-raises the original
exception.  Otherwise the whole tier is awaited and results are stored in
tier order, the first stored failure triggering the same except-branch
(with nothing left to cancel). -/
def runTiers (tasks : Tasks) (depsM : List (String × List String)) :
    List (List String) → List String → (String → Except Exc Value) → ExecOut → ExecOut
  | [], _, _, st => st
  | [] :: rest, sched, ack, st =>
    runTiers tasks depsM rest (sched.drop 1) ack { st with launched := st.launched ++ [] }
  | (a :: tl) :: rest, sched, ack, st =>
    match tierOut tasks depsM st.store (firstOf sched (a :: tl)) with
    | .error e =>
      ⟨st.store, st.launched ++ (a :: tl), st.finished ++ [firstOf sched (a :: tl)],
        st.cancelled ++ (a :: tl).filter (fun t => t ≠ firstOf sched (a :: tl)),
        (st.launched ++ (a :: tl)).map (fun t => (t, ack t)), some e⟩
    | .ok _ =>
      match (storeTier (tierOut tasks depsM st.store) st.store (a :: tl)).2 with
      | some e =>
        ⟨(storeTier (tierOut tasks depsM st.store) st.store (a :: tl)).1,
          st.launched ++ (a :: tl), st.finished ++ (a :: tl), st.cancelled,
          (st.launched ++ (a :: tl)).map (fun t => (t, ack t)), some e⟩
      | none =>
        runTiers tasks depsM rest (sched.drop 1) ack
          ⟨(storeTier (tierOut tasks depsM st.store) st.store (a :: tl)).1,
            st.launched ++ (a :: tl), st.finished ++ (a :: tl), st.cancelled,
            st.ackExcs, none⟩

/-! ### Orchestration context exit (context.py lines 222-289) -/

/-- Observable outcome of __aexit__: the exception that reaches the caller,
whether a plan was computed, how many times the worker pool owned by the
run was shut down, and the executor trace when execution happened. -/
structure AexitOut where
  propagated : Option Exc
  planBuilt : Bool
  shutdowns : Nat
  exec : Option ExecOut
  deriving DecidableEq

/-- The __aexit__ protocol: a pre-existing exception from the body of the
with-block returns immediately (lines 228-229, so the exception propagates
unchanged and nothing else runs); graph building runs next and its failure
is raised directly (lines 231-235), before the try/finally that guards the
tier loop — so the executor pool created by __aenter__ is not shut down on
those two paths; otherwise the tier loop runs and the finally block shuts
the pool down exactly once (lines 287-289). -/
def aexit (callerExc : Option Exc) (tasks : Tasks) (store0 : List (String × Value))
    (sched : List String) (ack : String → Except Exc Value) : AexitOut :=
  match callerExc with
  | some e => ⟨some e, false, 0, none⟩
  | none =>
    match buildPlan tasks with
    | .error e => ⟨some e, false, 0, none⟩
    | .ok plan =>
      let r := runTiers tasks plan.dependencies plan.tiers sched ack
        ⟨store0, [], [], [], [], none⟩
      ⟨r.error, true, 1, some r⟩

/-! ### Dynamic merge/dispatch -/

/-- Ambient run context consulted by merge, carrying the nesting depth of
dynamic dispatch. -/
structure RunCtx where
  depth : Nat

/-- Recursion depth bound of nested merge invocations. -/
def mergeLimit : Nat := 100

/-- Result payload of merge: a single value or the ordered fan-out list. -/
inductive MergeRes where
  | one (v : Value)
  | many (vs : List Value)
  deriving DecidableEq

/-- Modelled from the spec: the body of WoveContextManager._merge is elided
in src/wove/context.py (a bare pass under an implementation-unchanged
comment), so the dynamic merge/dispatch primitive is modelled from spec
section 4.4: with no active orchestration run it fails with a ContextError
before invoking the supplied callable; past the recursion depth bound it
fails with a RecursionLimitError; otherwise the single-call form invokes
the callable once through the sync/async bridge and the mapped form invokes
it once per element of the collection, returning the ordered list of
results, a first failure cancelling the rest of the fan-out.  The second
component counts the invocations of the supplied callable. -/
def merge (ctx : Option RunCtx) (f : Value → Except Exc Value)
    (collection : Option (List Value)) : Except Exc MergeRes × Nat :=
  match ctx with
  | none => (.error .contextError, 0)
  | some c =>
    if mergeLimit < c.depth then (.error .recursionLimitError, 0)
    else
      match collection with
      | none =>
        match f .unit with
        | .ok v => (.ok (.one v), 1)
        | .error e => (.error e, 1)
      | some xs =>
        let rs := xs.map f
        match rs.findSome? (fun r => match r with | .error e => some e | .ok _ => none) with
        | some e => (.error e, xs.length)
        | none => (.ok (.many (rs.filterMap (fun r => r.toOption))), xs.length)

/-! ### Helpers (helpers.py lines 38-47) -/

/-- Conversion of a 2D iterable into a 1D list: the comprehension
[item for sublist in list_of_lists for item in sublist]. -/
def flatten {α : Type} (listOfLists : List (List α)) : List α :=
  listOfLists.flatten

/-- Conversion of a 1D list into consecutive chunks of a given size:
[a_list[i : i + size] for i in range(0, len(a_list), size)], guarded by a
ValueError for non-positive sizes.  Python slicing a_list[i : i + size] is
drop i followed by take size, and range(0, n, s) has ceil(n / s) elements. -/
def fold {α : Type} (aList : List α) (size : Int) : Except Exc (List (List α)) :=
  if size ≤ 0 then .error (.valueError "Fold size must be a positive integer.")
  else
    let s := size.toNat
    .ok ((List.range' 0 ((aList.length + s - 1) / s) s).map
      (fun i => (aList.drop i).take s))

/-! ### Concrete runs used by the theorems below -/

/-- Prefix test on character lists. -/
def isPrefixChars : List Char → List Char → Bool
  | [], _ => true
  | _ :: _, [] => false
  | s :: ss, c :: cs => s = c && isPrefixChars ss cs

/-- Occurrence test on character lists. -/
def containsChars (sub : List Char) : List Char → Bool
  | [] => isPrefixChars sub []
  | c :: cs => isPrefixChars sub (c :: cs) || containsChars sub cs

/-- Substring test used to state what an error message does or does not name. -/
def mentions (msg sub : String) : Bool :=
  containsChars sub.data msg.data

/-- Drain acknowledgement of a cancelled asyncio task: gather observes its
CancelledError. -/
def ackCancelled : String → Except Exc Value :=
  fun _ => .error .cancelledError

/-- Body of the mapped squares task: item * item. -/
def squaresBehavior : List (String × Value) → Nat → AttemptBehavior :=
  fun args _ =>
    ⟨0, match alookup args "item" with
        | some (.int n) => .ok (.int (n * n))
        | _ => .error (.typeError "squares expects an item argument")⟩

/-- Task set of the mapped-task example: @w.do([0, 1, ..., 9]) applied to
def squares(item): return item * item. -/
def c1Tasks : Tasks :=
  [("squares",
    ⟨["item"], some (.ofList ((List.range 10).map (fun n => .int (n : Int)))),
     false, 0, none, squaresBehavior⟩)]

/-- Two independent tasks in one tier: boom raises, slow runs longer. -/
def c2Tasks : Tasks :=
  [("boom", ⟨[], none, false, 0, none, fun _ _ => ⟨0, .error (.user "boom")⟩⟩),
   ("slow", ⟨[], none, false, 0, none, fun _ _ => ⟨5, .ok (.int 1)⟩⟩)]

/-- Dependency map of the c2Tasks run (both tasks independent). -/
def c2DepsM : List (String × List String) := [("boom", []), ("slow", [])]

/-- Tiers of the c2Tasks run: one tier holding both tasks. -/
def c2Tiers : List (List String) := [["boom", "slow"]]

/-- Scheduler observation of the c2Tasks run: boom completes first. -/
def c2Sched : List String := ["boom"]

/-- Initial executor state with an empty store. -/
def execInit : ExecOut := ⟨[], [], [], [], [], none⟩

/-- One task whose sole parameter name matches no seed or task name
(tests/test_exceptions.py registers lambda unavailable_dependency: ...). -/
def c3Tasks : Tasks :=
  [("lonely",
    ⟨["unavailable_dependency"], none, false, 0, none,
     fun _ _ => ⟨0, .ok (.str "will not run")⟩⟩)]

/-- Mutually dependent pair: xx(yy) and yy(xx). -/
def c4Tasks : Tasks :=
  [("xx", ⟨["yy"], none, false, 0, none, fun _ _ => ⟨0, .ok .unit⟩⟩),
   ("yy", ⟨["xx"], none, false, 0, none, fun _ _ => ⟨0, .ok .unit⟩⟩)]

/-- Acyclic demo set: a seed value, a consumer, a diamond below it. -/
def c5Tasks : Tasks :=
  [("seedx", ⟨[], none, true, 0, none, fun _ _ => ⟨0, .ok (.int 7)⟩⟩),
   ("a", ⟨["seedx"], none, false, 0, none, fun _ _ => ⟨0, .ok (.int 1)⟩⟩),
   ("b", ⟨["a"], none, false, 0, none, fun _ _ => ⟨0, .ok (.int 2)⟩⟩),
   ("c", ⟨["a"], none, false, 0, none, fun _ _ => ⟨0, .ok (.int 3)⟩⟩),
   ("d", ⟨["b", "c"], none, false, 0, none, fun _ _ => ⟨0, .ok (.int 4)⟩⟩)]

/-- Rank function witnessing that the c5Tasks dependency graph is acyclic. -/
def c5Rank : String → Nat :=
  fun n => if n = "seedx" then 0 else if n = "a" then 1
    else if n = "b" then 2 else if n = "c" then 2 else 3

/-- Mapped task with no free parameter: @w.do([1]) on def badmap(): ... —
graph building raises TypeError. -/
def c6Tasks : Tasks :=
  [("badmap",
    ⟨[], some (.ofList [.int 1]), false, 0, none, fun _ _ => ⟨0, .ok .unit⟩⟩)]

/-- Decidable test that an Except value is an error. -/
def isErr {ε α : Type} : Except ε α → Bool
  | .error _ => true
  | .ok _ => false

/-- A task body that never raises asyncio.CancelledError itself (raising
CancelledError from a task body is not a user-level failure mode). -/
def noCancel (info : TaskInfo) : Prop :=
  ∀ args i, (info.behavior args i).res ≠ Except.error Exc.cancelledError

/-- Attempt sequence used to exercise the retry wrapper: attempts 0 and 1
fail, attempt 2 fails as well. -/
def c7Attempts : Nat → AttemptBehavior :=
  fun i => ⟨0, .error (.user ("fail" ++ toString i))⟩

/-- Projection of an executor trace to everything except the drained
acknowledgement values. -/
def ExecOut.core (r : ExecOut) :
    List (String × Value) × List String × List String × List String × Option Exc :=
  (r.store, r.launched, r.finished, r.cancelled, r.error)

/-- Loop invariant of the tier-construction loop of _build_graph_and_plan:
processed is the flattening of the tiers built so far, queue the current
frontier and deg the in-degree table.  Degrees are exactly the number of
dependencies not yet placed in a tier, frontier members are already at
degree zero, and every name whose dependencies are all processed has been
queued. -/
structure KahnInv (names : List String) (depsFn : String → List String)
    (processed queue : List String) (deg : String → Int) : Prop where
  nodup : (processed ++ queue).Nodup
  sub : ∀ n ∈ processed ++ queue, n ∈ names
  degEq : ∀ n ∈ names, deg n =
    (((depsFn n).filter (fun d => d ∉ processed)).length : Int)
  queueZero : ∀ n ∈ names, n ∉ processed →
    ((depsFn n).filter (fun d => d ∉ processed)).length = 0 → n ∈ queue
  memLe : ∀ n ∈ processed ++ queue, deg n ≤ 0

/-- Loop invariant of the sequential Kahn sorting loop of
_build_graph_and_plan, relative to a set S of names forming a cycle:
the sorted output stays inside the task names, is duplicate-free, never
touches S, and degrees never drop below the number of unsorted
dependencies. -/
structure SortInv (names : List String) (depsFn : String → List String)
    (S : List String) (sorted queue : List String) (deg : String → Int) : Prop where
  nodup : (sorted ++ queue).Nodup
  sub : ∀ n ∈ sorted ++ queue, n ∈ names
  degLb : ∀ n ∈ names,
    (((depsFn n).filter (fun d => d ∉ sorted)).length : Int) ≤ deg n
  memLe : ∀ n ∈ sorted ++ queue, deg n ≤ 0
  avoid : ∀ n ∈ sorted ++ queue, n ∉ S

/-- Proposition that S witnesses a cycle in the dependency map: S is a
nonempty set of task names each of which has a dependency inside S. -/
def CycleWitness (names : List String) (depsFn : String → List String)
    (S : List String) : Prop :=
  S ≠ [] ∧ (∀ s ∈ S, s ∈ names) ∧ ∀ s ∈ S, ∃ d, d ∈ depsFn s ∧ d ∈ S

/-- Execution plan of the c5Tasks demo, as computed by buildPlan. -/
def c5Plan : Plan :=
  ((buildPlan c5Tasks).toOption).getD ⟨[], [], [], [], []⟩

/-! ## Theorems -/

/-- Claim C1: the claim states that a successful run of a mapped task over a
finite collection stores the index-aligned list of per-element outputs
under the mapped task name (squares over [0..9] giving [0, 1, 4, ..., 81]).
The executor in context.py never consults map_source or item_param: it
invokes the callable once with only the dependency arguments, so the call
fails with TypeError instead of fanning out, the run propagates that error,
and nothing is stored under the mapped task name.  This contradicts the
spec and the tests in tests/test_executor.py. -/
theorem c1_mapped_task_not_aggregated :
    (aexit none c1Tasks [] ["squares"] ackCancelled).propagated =
      some (Exc.typeError "missing or unexpected keyword argument") ∧
    ((aexit none c1Tasks [] ["squares"] ackCancelled).exec.map
      (fun r => alookup r.store "squares")) = some none := by
  decide

/-- Claim C3: the claim states that an input name resolving to no seed value
and no task name makes graph building fail with a DependencyError naming
the task, its unresolved names and the sorted available names, before any
task executes.  The graph builder of context.py silently drops unresolved
parameter names of non-mapped tasks (params are intersected with task
names), builds a plan, launches the task, and only the call itself fails
with TypeError — the repository tests (tests/test_exceptions.py) expect an
UnresolvedSignatureError from a wove.errors module that the source tree
does not contain. -/
theorem c3_unresolved_name_not_rejected_before_execution :
    (aexit none c3Tasks [] ["lonely"] ackCancelled).planBuilt = true ∧
    ((aexit none c3Tasks [] ["lonely"] ackCancelled).exec.map
      (fun r => r.launched)) = some ["lonely"] ∧
    (aexit none c3Tasks [] ["lonely"] ackCancelled).propagated =
      some (Exc.typeError "missing or unexpected keyword argument") := by
  decide

/-- Claim C4, counterexample: on the two-task cycle xx(yy), yy(xx) the run
does fail before executing anything, but with the constant RuntimeError
message, which names neither implicated task — refuting the part of the
claim requiring the error to name all tasks contributing to the cycle. -/
theorem c4_cycle_error_does_not_name_tasks :
    buildPlan c4Tasks = .error (.runtimeError cycleMsg) ∧
    mentions cycleMsg "xx" = false ∧ mentions cycleMsg "yy" = false := by
  decide

/-- Claim C6: the claim states the worker pool is shut down exactly once on
every exit path, including graph-construction errors.  The finally block of
__aexit__ (context.py lines 287-289) only guards the tier loop; the graph
builder is called before it (lines 231-235), so its exceptions propagate
with zero shutdowns of the pool created by __aenter__ — shown here on a
mapped task with no free parameter. -/
theorem c6_pool_not_shut_down_on_graph_error :
    (aexit none c6Tasks [] [] ackCancelled).shutdowns = 0 ∧
    (aexit none c6Tasks [] [] ackCancelled).propagated =
      some (Exc.typeError
        "Mapped task badmap must have exactly one parameter that is not a dependency.") := by
  decide

/-- Claim C8: an exception raised by the caller inside the orchestration
scope makes __aexit__ return immediately (context.py lines 228-229): the
plan is never built, no task is launched, the pool shutdown path is not
reached, and the context protocol propagates the original exception
unchanged. -/
theorem c8_caller_exception_bypasses_run (e : Exc) (tasks : Tasks)
    (store0 : List (String × Value)) (sched : List String)
    (ack : String → Except Exc Value) :
    aexit (some e) tasks store0 sched ack = ⟨some e, false, 0, none⟩ :=
  rfl

/-- Claim C9: invoking the dynamic merge/dispatch primitive with no active
orchestration run fails with a ContextError and the supplied callable is
invoked zero times. -/
theorem c9_merge_without_active_run (f : Value → Except Exc Value)
    (collection : Option (List Value)) :
    merge none f collection = (.error .contextError, 0) :=
  rfl

/-! ### Retry wrapper lemmas -/

theorem retryFrom_all_fail (timeout : Option Nat) (attempt : Nat → AttemptBehavior) :
    ∀ (r i : Nat), (∀ j, j ≤ r → isErr (runAttempt timeout (attempt (i + j))) = true) →
      retryFrom timeout attempt i r = (runAttempt timeout (attempt (i + r)), r + 1) := by
  intro r
  induction r with
  | zero => intro i _; simp [retryFrom]
  | succ r ih =>
    intro i h
    have h0 : isErr (runAttempt timeout (attempt i)) = true := by
      simpa using h 0 (Nat.zero_le _)
    cases hra : runAttempt timeout (attempt i) with
    | ok v => rw [hra] at h0; simp [isErr] at h0
    | error e =>
      have ih2 := ih (i + 1) (fun j hj => by
        have := h (j + 1) (Nat.succ_le_succ hj)
        have hadd : i + (j + 1) = i + 1 + j := by omega
        rwa [hadd] at this)
      have hadd : i + 1 + r = i + (r + 1) := by omega
      simp [retryFrom, hra, ih2, hadd]

theorem retryFrom_first_success (timeout : Option Nat) (attempt : Nat → AttemptBehavior) :
    ∀ (k r i : Nat) (v : Value), k ≤ r →
      runAttempt timeout (attempt (i + k)) = .ok v →
      (∀ j, j < k → isErr (runAttempt timeout (attempt (i + j))) = true) →
      retryFrom timeout attempt i r = (.ok v, k + 1) := by
  intro k
  induction k with
  | zero =>
    intro r i v _ hv _
    rw [Nat.add_zero] at hv
    cases r with
    | zero => simp [retryFrom, hv]
    | succ r => simp [retryFrom, hv]
  | succ k ih =>
    intro r i v hkr hv hmin
    cases r with
    | zero => omega
    | succ r =>
      have h0 : isErr (runAttempt timeout (attempt i)) = true := by
        simpa using hmin 0 (Nat.succ_pos _)
      cases hra : runAttempt timeout (attempt i) with
      | ok w => rw [hra] at h0; simp [isErr] at h0
      | error e =>
        have hv2 : runAttempt timeout (attempt (i + 1 + k)) = .ok v := by
          have hadd : i + 1 + k = i + (k + 1) := by omega
          rwa [hadd]
        have ih2 := ih r (i + 1) v (Nat.le_of_succ_le_succ hkr) hv2 (fun j hj => by
          have := hmin (j + 1) (Nat.succ_lt_succ hj)
          have hadd : i + (j + 1) = i + 1 + j := by omega
          rwa [hadd] at this)
        simp [retryFrom, hra, ih2]

theorem retryFrom_is_attempt (timeout : Option Nat) (attempt : Nat → AttemptBehavior) :
    ∀ (r i : Nat), ∃ j, j ≤ r ∧
      (retryFrom timeout attempt i r).1 = runAttempt timeout (attempt (i + j)) := by
  intro r
  induction r with
  | zero => intro i; exact ⟨0, Nat.le_refl _, by simp [retryFrom]⟩
  | succ r ih =>
    intro i
    cases hra : runAttempt timeout (attempt i) with
    | ok v => exact ⟨0, Nat.zero_le _, by simp [retryFrom, hra]⟩
    | error e =>
      obtain ⟨j, hj, hval⟩ := ih (i + 1)
      refine ⟨j + 1, Nat.succ_le_succ hj, ?_⟩
      have hadd : i + (j + 1) = i + 1 + j := by omega
      simp [retryFrom, hra, hval, hadd]

/-- Claim C7: the retry wrapper (context.py lines 204-220) performs up to
N + 1 invocations of the callable with the same bound arguments (the
argument binding is fixed before the loop, see taskOutcome): if every
attempt fails the result is the failure of the last attempt after exactly
N + 1 invocations; the first successful attempt k returns its value after
exactly k + 1 invocations; and an elapsed configured timeout is the failure
of that attempt (asyncio.wait_for raising TimeoutError). -/
theorem c7_retry_contract (retriesN : Nat) (timeout : Option Nat)
    (attempt : Nat → AttemptBehavior) :
    ((∀ i, i ≤ retriesN → isErr (runAttempt timeout (attempt i)) = true) →
      retryRun retriesN timeout attempt =
        (runAttempt timeout (attempt retriesN), retriesN + 1)) ∧
    (∀ k v, k ≤ retriesN → runAttempt timeout (attempt k) = .ok v →
      (∀ i, i < k → isErr (runAttempt timeout (attempt i)) = true) →
      retryRun retriesN timeout attempt = (.ok v, k + 1)) ∧
    (∀ t a, t < a.duration → runAttempt (some t) a = .error .timeoutError) ∧
    (∀ (info : TaskInfo) (deps : List String) (store : List (String × Value)),
      taskOutcome info deps store =
        retryRun info.retries info.timeout
          (fun i => callTask info (bindArgs store deps) i)) := by
  refine ⟨?_, ?_, ?_, ?_⟩
  · intro h
    have := retryFrom_all_fail timeout attempt retriesN 0 (fun j hj => by
      simpa using h j hj)
    simpa [retryRun] using this
  · intro k v hk hv hmin
    have := retryFrom_first_success timeout attempt k retriesN 0 v hk
      (by simpa using hv) (fun j hj => by simpa using hmin j hj)
    simpa [retryRun] using this
  · intro t a h
    simp [runAttempt, h]
  · intro info deps store
    rfl

/-- Claim C7, witness: three attempts that all fail give the last failure
after exactly three invocations. -/
theorem c7_retry_contract_witness :
    (∀ i, i ≤ 2 → isErr (runAttempt none (c7Attempts i)) = true) ∧
    retryRun 2 none c7Attempts = (.error (.user "fail2"), 3) := by
  refine ⟨by decide, ?_⟩
  have h := (c7_retry_contract 2 none c7Attempts).1 (by decide)
  simpa [c7Attempts, runAttempt] using h

/-! ### Helper lemmas for fold and flatten -/

theorem drop_take_shift {α : Type} (s : Nat) (xs : List α) :
    ∀ (k a : Nat),
      (List.range' (a + s) k s).map (fun i => (xs.drop i).take s) =
        (List.range' a k s).map (fun i => ((xs.drop s).drop i).take s) := by
  intro k
  induction k with
  | zero => intro a; simp
  | succ k ih =>
    intro a
    rw [List.range'_succ, List.range'_succ]
    simp only [List.map_cons]
    refine congrArg₂ _ ?_ (ih (a + s))
    rw [List.drop_drop, Nat.add_comm s a]

theorem flatten_chunks {α : Type} (s : Nat) (hs : 0 < s) :
    ∀ (n : Nat) (xs : List α), xs.length ≤ n →
      ((List.range' 0 ((xs.length + s - 1) / s) s).map
        (fun i => (xs.drop i).take s)).flatten = xs := by
  intro n
  induction n with
  | zero =>
    intro xs h
    have hnil : xs = [] := List.eq_nil_of_length_eq_zero (Nat.le_zero.mp h)
    subst hnil
    have : (0 + s - 1) / s = 0 := Nat.div_eq_of_lt (by omega)
    simp [this]
  | succ n ih =>
    intro xs hlen
    cases xs with
    | nil =>
      have : (0 + s - 1) / s = 0 := Nat.div_eq_of_lt (by omega)
      simp [this]
    | cons a l =>
      have hpos : 0 < (a :: l).length := by simp
      have hnum : ((a :: l).length + s - 1) / s = ((a :: l).length - 1) / s + 1 := by
        have h1 : (a :: l).length + s - 1 = ((a :: l).length - 1) + s := by omega
        rw [h1, Nat.add_div_right _ hs]
      have hdlen : ((a :: l).drop s).length = (a :: l).length - s := by
        simp
      have hm : (((a :: l).drop s).length + s - 1) / s = ((a :: l).length - 1) / s := by
        rw [hdlen]
        rcases Nat.le_total s (a :: l).length with hle | hle
        · have h2 : (a :: l).length - s + s - 1 = (a :: l).length - 1 := by omega
          rw [h2]
        · have h2 : (a :: l).length - s = 0 := by omega
          rw [h2]
          have h3 : (0 + s - 1) / s = 0 := Nat.div_eq_of_lt (by omega)
          have h4 : ((a :: l).length - 1) / s = 0 := Nat.div_eq_of_lt (by omega)
          rw [h3, h4]
      have ihd := ih ((a :: l).drop s) (by rw [hdlen]; omega)
      rw [hm] at ihd
      rw [hnum, List.range'_succ]
      simp only [List.map_cons, List.flatten_cons, List.drop_zero]
      rw [drop_take_shift s (a :: l) (((a :: l).length - 1) / s) 0, ihd,
        List.take_append_drop]

/-- Claim C10: for every list and every positive chunk size, flatten after
fold is the identity — fold (helpers.py lines 43-47) cuts the list into
consecutive chunks of at most the given size and flatten (helpers.py lines
38-40) concatenates them back in order. -/
theorem c10_fold_flatten {α : Type} (xs : List α) (size : Int) (h : 0 < size) :
    (fold xs size).map flatten = .ok xs := by
  have hsle : ¬ size ≤ 0 := by omega
  have hs : 0 < size.toNat := by omega
  simp only [fold, if_neg hsle, Except.map, flatten]
  exact congrArg Except.ok (flatten_chunks size.toNat hs xs.length xs (Nat.le_refl _))

/-- Claim C10, witness: folding a five-element list into pairs and
flattening gives back the original list. -/
theorem c10_fold_flatten_witness :
    (0 : Int) < 2 ∧
    (fold [1, 2, 3, 4, 5] (2 : Int)).map flatten = .ok [1, 2, 3, 4, 5] :=
  ⟨by decide, c10_fold_flatten [1, 2, 3, 4, 5] 2 (by decide)⟩

/-! ### Executor lemmas -/

theorem storeTier_error (out : String → Except Exc Value) :
    ∀ (tier : List String) (store : List (String × Value)) (e : Exc),
      (storeTier out store tier).2 = some e → ∃ t, t ∈ tier ∧ out t = .error e := by
  intro tier
  induction tier with
  | nil => intro store e h; simp [storeTier] at h
  | cons t rest ih =>
    intro store e h
    cases ho : out t with
    | ok v =>
      rw [storeTier, ho] at h
      obtain ⟨u, hu, hval⟩ := ih (store ++ [(t, v)]) e h
      exact ⟨u, List.mem_cons_of_mem _ hu, hval⟩
    | error e2 =>
      rw [storeTier, ho] at h
      simp at h
      exact ⟨t, List.mem_cons_self _ _, by rw [ho, h]⟩

theorem firstOf_mem (sched : List String) (tier : List String) (h : tier ≠ []) :
    firstOf sched tier ∈ tier := by
  unfold firstOf
  split
  · assumption
  · cases tier with
    | nil => exact absurd rfl h
    | cons a l => exact List.mem_cons_self _ _

theorem runTiers_nil_tier (tasks : Tasks) (depsM : List (String × List String))
    (rest : List (List String)) (sched : List String)
    (ack : String → Except Exc Value) (st : ExecOut) :
    runTiers tasks depsM ([] :: rest) sched ack st =
      runTiers tasks depsM rest (sched.drop 1) ack st := by
  rw [runTiers]
  congr 1
  cases st
  simp

theorem runTiers_fail (tasks : Tasks) (depsM : List (String × List String))
    (a : String) (tl : List String) (rest : List (List String)) (sched : List String)
    (ack : String → Except Exc Value) (st : ExecOut) (e0 : Exc)
    (h : tierOut tasks depsM st.store (firstOf sched (a :: tl)) = .error e0) :
    runTiers tasks depsM ((a :: tl) :: rest) sched ack st =
      ⟨st.store, st.launched ++ (a :: tl), st.finished ++ [firstOf sched (a :: tl)],
        st.cancelled ++ (a :: tl).filter (fun t => t ≠ firstOf sched (a :: tl)),
        (st.launched ++ (a :: tl)).map (fun t => (t, ack t)), some e0⟩ := by
  rw [runTiers, h]

theorem runTiers_store_fail (tasks : Tasks) (depsM : List (String × List String))
    (a : String) (tl : List String) (rest : List (List String)) (sched : List String)
    (ack : String → Except Exc Value) (st : ExecOut) (v0 : Value) (e0 : Exc)
    (h1 : tierOut tasks depsM st.store (firstOf sched (a :: tl)) = .ok v0)
    (h2 : (storeTier (tierOut tasks depsM st.store) st.store (a :: tl)).2 = some e0) :
    runTiers tasks depsM ((a :: tl) :: rest) sched ack st =
      ⟨(storeTier (tierOut tasks depsM st.store) st.store (a :: tl)).1,
        st.launched ++ (a :: tl), st.finished ++ (a :: tl), st.cancelled,
        (st.launched ++ (a :: tl)).map (fun t => (t, ack t)), some e0⟩ := by
  rw [runTiers, h1, h2]

theorem runTiers_next (tasks : Tasks) (depsM : List (String × List String))
    (a : String) (tl : List String) (rest : List (List String)) (sched : List String)
    (ack : String → Except Exc Value) (st : ExecOut) (v0 : Value)
    (h1 : tierOut tasks depsM st.store (firstOf sched (a :: tl)) = .ok v0)
    (h2 : (storeTier (tierOut tasks depsM st.store) st.store (a :: tl)).2 = none) :
    runTiers tasks depsM ((a :: tl) :: rest) sched ack st =
      runTiers tasks depsM rest (sched.drop 1) ack
        ⟨(storeTier (tierOut tasks depsM st.store) st.store (a :: tl)).1,
          st.launched ++ (a :: tl), st.finished ++ (a :: tl), st.cancelled,
          st.ackExcs, none⟩ := by
  rw [runTiers, h1, h2]

theorem runAttempt_callTask_ne_cancelled (timeout : Option Nat) (info : TaskInfo)
    (h : noCancel info) (args : List (String × Value)) (j : Nat) :
    runAttempt timeout (callTask info args j) ≠ .error .cancelledError := by
  have hres : (callTask info args j).res ≠ Except.error Exc.cancelledError := by
    unfold callTask
    split
    · exact h args j
    · simp
  cases timeout with
  | none => simpa [runAttempt] using hres
  | some t =>
    simp only [runAttempt]
    split
    · simp
    · exact hres

theorem taskOutcome_ne_cancelled (info : TaskInfo) (deps : List String)
    (store : List (String × Value)) (h : noCancel info) :
    (taskOutcome info deps store).1 ≠ .error .cancelledError := by
  unfold taskOutcome retryRun
  obtain ⟨j, _, hval⟩ :=
    retryFrom_is_attempt info.timeout (fun i => callTask info (bindArgs store deps) i)
      info.retries 0
  rw [hval]
  exact runAttempt_callTask_ne_cancelled _ _ h _ _

theorem runTiers_spec (tasks : Tasks) (depsM : List (String × List String)) :
    ∀ (tiers : List (List String)) (sched : List String)
      (ack : String → Except Exc Value) (st : ExecOut),
      st.error = none →
      (∀ t, t ∈ st.launched → t ∈ st.finished ∨ t ∈ st.cancelled) →
      ∀ e, (runTiers tasks depsM tiers sched ack st).error = some e →
        (∃ t s2, t ∈ (runTiers tasks depsM tiers sched ack st).launched ∧
          (taskOutcome (alookupD tasks t infoDefault) (alookupD depsM t []) s2).1 =
            .error e) ∧
        (∀ t, t ∈ (runTiers tasks depsM tiers sched ack st).launched →
          t ∈ (runTiers tasks depsM tiers sched ack st).finished ∨
          t ∈ (runTiers tasks depsM tiers sched ack st).cancelled) ∧
        (∀ t, t ∈ (runTiers tasks depsM tiers sched ack st).launched →
          (t, ack t) ∈ (runTiers tasks depsM tiers sched ack st).ackExcs) := by
  intro tiers
  induction tiers with
  | nil =>
    intro sched ack st hno _ e herr
    rw [runTiers] at herr
    rw [hno] at herr
    exact absurd herr (by simp)
  | cons tier rest ih =>
    intro sched ack st hno hcov e herr
    cases tier with
    | nil =>
      rw [runTiers_nil_tier] at herr ⊢
      exact ih (sched.drop 1) ack st hno hcov e herr
    | cons a tl =>
      cases hfo : tierOut tasks depsM st.store (firstOf sched (a :: tl)) with
      | error e0 =>
        rw [runTiers_fail tasks depsM a tl rest sched ack st e0 hfo] at herr ⊢
        have he : e0 = e := by simpa using herr
        subst he
        refine ⟨⟨firstOf sched (a :: tl), st.store, ?_, hfo⟩, ?_, ?_⟩
        · show firstOf sched (a :: tl) ∈ st.launched ++ (a :: tl)
          exact List.mem_append_right _ (firstOf_mem sched (a :: tl) (by simp))
        · intro t ht
          replace ht : t ∈ st.launched ++ (a :: tl) := ht
          rw [List.mem_append] at ht
          show t ∈ st.finished ++ [firstOf sched (a :: tl)] ∨
            t ∈ st.cancelled ++ (a :: tl).filter (fun u => u ≠ firstOf sched (a :: tl))
          rcases ht with hst | htier2
          · rcases hcov t hst with hf | hc
            · exact Or.inl (List.mem_append_left _ hf)
            · exact Or.inr (List.mem_append_left _ hc)
          · by_cases heq : t = firstOf sched (a :: tl)
            · exact Or.inl (List.mem_append_right _ (by simp [heq]))
            · refine Or.inr (List.mem_append_right _ ?_)
              rw [List.mem_filter]
              exact ⟨htier2, by simpa using heq⟩
        · intro t ht
          replace ht : t ∈ st.launched ++ (a :: tl) := ht
          show (t, ack t) ∈ (st.launched ++ (a :: tl)).map (fun u => (u, ack u))
          exact List.mem_map_of_mem _ ht
      | ok v0 =>
        cases hst2 : (storeTier (tierOut tasks depsM st.store) st.store (a :: tl)).2 with
        | some e0 =>
          rw [runTiers_store_fail tasks depsM a tl rest sched ack st v0 e0 hfo hst2]
            at herr ⊢
          have he : e0 = e := by simpa using herr
          subst he
          obtain ⟨t0, ht0, hval0⟩ := storeTier_error _ (a :: tl) st.store _ hst2
          refine ⟨⟨t0, st.store, ?_, hval0⟩, ?_, ?_⟩
          · show t0 ∈ st.launched ++ (a :: tl)
            exact List.mem_append_right _ ht0
          · intro t ht
            replace ht : t ∈ st.launched ++ (a :: tl) := ht
            rw [List.mem_append] at ht
            show t ∈ st.finished ++ (a :: tl) ∨ t ∈ st.cancelled
            rcases ht with hst | htier2
            · rcases hcov t hst with hf | hc
              · exact Or.inl (List.mem_append_left _ hf)
              · exact Or.inr hc
            · exact Or.inl (List.mem_append_right _ htier2)
          · intro t ht
            replace ht : t ∈ st.launched ++ (a :: tl) := ht
            show (t, ack t) ∈ (st.launched ++ (a :: tl)).map (fun u => (u, ack u))
            exact List.mem_map_of_mem _ ht
        | none =>
          rw [runTiers_next tasks depsM a tl rest sched ack st v0 hfo hst2] at herr ⊢
          refine ih (sched.drop 1) ack _ rfl ?_ e herr
          intro t ht
          replace ht : t ∈ st.launched ++ (a :: tl) := ht
          rw [List.mem_append] at ht
          show t ∈ st.finished ++ (a :: tl) ∨ t ∈ st.cancelled
          rcases ht with hst | htier2
          · rcases hcov t hst with hf | hc
            · exact Or.inl (List.mem_append_left _ hf)
            · exact Or.inr hc
          · exact Or.inl (List.mem_append_right _ htier2)

theorem runTiers_core_ack (tasks : Tasks) (depsM : List (String × List String)) :
    ∀ (tiers : List (List String)) (sched : List String)
      (ack ack2 : String → Except Exc Value) (st st2 : ExecOut),
      st.core = st2.core →
      (runTiers tasks depsM tiers sched ack st).core =
        (runTiers tasks depsM tiers sched ack2 st2).core := by
  intro tiers
  induction tiers with
  | nil => intro sched ack ack2 st st2 h; rw [runTiers, runTiers]; exact h
  | cons tier rest ih =>
    intro sched ack ack2 st st2 h
    have hfields : st.store = st2.store ∧ st.launched = st2.launched ∧
        st.finished = st2.finished ∧ st.cancelled = st2.cancelled ∧
        st.error = st2.error := by
      simpa [ExecOut.core, Prod.ext_iff] using h
    obtain ⟨h1, h2, h3, h4, h5⟩ := hfields
    cases tier with
    | nil =>
      rw [runTiers_nil_tier, runTiers_nil_tier]
      exact ih (sched.drop 1) ack ack2 st st2 h
    | cons a tl =>
      cases hfo : tierOut tasks depsM st.store (firstOf sched (a :: tl)) with
      | error e0 =>
        have hfo2 : tierOut tasks depsM st2.store (firstOf sched (a :: tl)) =
            .error e0 := by rw [← h1]; exact hfo
        rw [runTiers_fail tasks depsM a tl rest sched ack st e0 hfo,
          runTiers_fail tasks depsM a tl rest sched ack2 st2 e0 hfo2]
        simp [ExecOut.core, h1, h2, h3, h4]
      | ok v0 =>
        have hfo2 : tierOut tasks depsM st2.store (firstOf sched (a :: tl)) =
            .ok v0 := by rw [← h1]; exact hfo
        cases hst2 : (storeTier (tierOut tasks depsM st.store) st.store (a :: tl)).2 with
        | some e0 =>
          have hst2b : (storeTier (tierOut tasks depsM st2.store) st2.store
              (a :: tl)).2 = some e0 := by rw [← h1]; exact hst2
          rw [runTiers_store_fail tasks depsM a tl rest sched ack st v0 e0 hfo hst2,
            runTiers_store_fail tasks depsM a tl rest sched ack2 st2 v0 e0 hfo2 hst2b]
          simp [ExecOut.core, h1, h2, h3, h4]
        | none =>
          have hst2b : (storeTier (tierOut tasks depsM st2.store) st2.store
              (a :: tl)).2 = none := by rw [← h1]; exact hst2
          rw [runTiers_next tasks depsM a tl rest sched ack st v0 hfo hst2,
            runTiers_next tasks depsM a tl rest sched ack2 st2 v0 hfo2 hst2b]
          exact ih (sched.drop 1) ack ack2 _ _
            (by simp [ExecOut.core, h1, h2, h3, h4])

/-- Claim C2: when a task invocation raises during a run, every task launched
so far is either finished or has received a cancellation request, every
launched task is drained by the gather acknowledgement pass before the
exception propagates, the propagated exception is the original exception of
one of the launched tasks (never a CancelledError wrapper, given that task
bodies do not raise CancelledError themselves), and the values collected
while draining acknowledgements never replace the propagated exception. -/
theorem c2_failure_cancellation (tasks : Tasks) (depsM : List (String × List String))
    (tiers : List (List String)) (sched : List String)
    (ack : String → Except Exc Value) (store0 : List (String × Value)) (e : Exc)
    (hnc : ∀ t, noCancel (alookupD tasks t infoDefault))
    (herr : (runTiers tasks depsM tiers sched ack ⟨store0, [], [], [], [], none⟩).error =
      some e) :
    e ≠ Exc.cancelledError ∧
    (∃ t s2,
      t ∈ (runTiers tasks depsM tiers sched ack ⟨store0, [], [], [], [], none⟩).launched ∧
      (taskOutcome (alookupD tasks t infoDefault) (alookupD depsM t []) s2).1 =
        .error e) ∧
    (∀ t, t ∈ (runTiers tasks depsM tiers sched ack ⟨store0, [], [], [], [], none⟩).launched →
      t ∈ (runTiers tasks depsM tiers sched ack ⟨store0, [], [], [], [], none⟩).finished ∨
      t ∈ (runTiers tasks depsM tiers sched ack ⟨store0, [], [], [], [], none⟩).cancelled) ∧
    (∀ t, t ∈ (runTiers tasks depsM tiers sched ack ⟨store0, [], [], [], [], none⟩).launched →
      (t, ack t) ∈
        (runTiers tasks depsM tiers sched ack ⟨store0, [], [], [], [], none⟩).ackExcs) ∧
    (∀ ack2, (runTiers tasks depsM tiers sched ack2 ⟨store0, [], [], [], [], none⟩).error =
      some e) := by
  obtain ⟨⟨t0, s2, ht0, hval0⟩, hcov, hack⟩ :=
    runTiers_spec tasks depsM tiers sched ack ⟨store0, [], [], [], [], none⟩ rfl
      (by intro t ht; simp at ht) e herr
  refine ⟨?_, ⟨t0, s2, ht0, hval0⟩, hcov, hack, ?_⟩
  · intro hcc
    subst hcc
    exact taskOutcome_ne_cancelled _ _ _ (hnc t0) hval0
  · intro ack2
    have hcore := runTiers_core_ack tasks depsM tiers sched ack ack2
      ⟨store0, [], [], [], [], none⟩ ⟨store0, [], [], [], [], none⟩ rfl
    have herr2 : (runTiers tasks depsM tiers sched ack
        ⟨store0, [], [], [], [], none⟩).error =
        (runTiers tasks depsM tiers sched ack2
          ⟨store0, [], [], [], [], none⟩).error :=
      congrArg (fun p => p.2.2.2.2) hcore
    rw [← herr2]
    exact herr

/-- Claim C2, witness: with boom failing first and slow still pending in the
same tier, the run propagates the boom exception, slow is cancelled, every
launched task is drained, and the error does not depend on the
acknowledgement values. -/
theorem c2_failure_cancellation_witness :
    (runTiers c2Tasks c2DepsM c2Tiers c2Sched ackCancelled ⟨[], [], [], [], [], none⟩).error =
      some (.user "boom") ∧
    (Exc.user "boom" ≠ Exc.cancelledError ∧
      (∃ t s2,
        t ∈ (runTiers c2Tasks c2DepsM c2Tiers c2Sched ackCancelled
          ⟨[], [], [], [], [], none⟩).launched ∧
        (taskOutcome (alookupD c2Tasks t infoDefault) (alookupD c2DepsM t []) s2).1 =
          .error (.user "boom")) ∧
      (∀ t, t ∈ (runTiers c2Tasks c2DepsM c2Tiers c2Sched ackCancelled
          ⟨[], [], [], [], [], none⟩).launched →
        t ∈ (runTiers c2Tasks c2DepsM c2Tiers c2Sched ackCancelled
          ⟨[], [], [], [], [], none⟩).finished ∨
        t ∈ (runTiers c2Tasks c2DepsM c2Tiers c2Sched ackCancelled
          ⟨[], [], [], [], [], none⟩).cancelled) ∧
      (∀ t, t ∈ (runTiers c2Tasks c2DepsM c2Tiers c2Sched ackCancelled
          ⟨[], [], [], [], [], none⟩).launched →
        (t, ackCancelled t) ∈ (runTiers c2Tasks c2DepsM c2Tiers c2Sched ackCancelled
          ⟨[], [], [], [], [], none⟩).ackExcs) ∧
      (∀ ack2, (runTiers c2Tasks c2DepsM c2Tiers c2Sched ack2
          ⟨[], [], [], [], [], none⟩).error = some (.user "boom"))) := by
  have hnc : ∀ t, noCancel (alookupD c2Tasks t infoDefault) := by
    intro t args i
    by_cases h1 : ("boom" : String) = t
    · have hl : alookupD c2Tasks t infoDefault =
          ⟨[], none, false, 0, none, fun _ _ => ⟨0, .error (.user "boom")⟩⟩ := by
        rw [← h1]
        rfl
      rw [hl]
      simp
    · by_cases h2 : ("slow" : String) = t
      · have hl : alookupD c2Tasks t infoDefault =
            ⟨[], none, false, 0, none, fun _ _ => ⟨5, .ok (.int 1)⟩⟩ := by
          rw [← h2]
          rfl
        rw [hl]
        simp
      · have hl : alookupD c2Tasks t infoDefault = infoDefault := by
          simp only [alookupD, c2Tasks, alookup]
          rw [if_neg h1, if_neg h2]
          rfl
        rw [hl]
        simp [infoDefault]
  have herr : (runTiers c2Tasks c2DepsM c2Tiers c2Sched ackCancelled
      ⟨[], [], [], [], [], none⟩).error = some (.user "boom") := by decide
  exact ⟨herr, c2_failure_cancellation c2Tasks c2DepsM c2Tiers c2Sched ackCancelled []
    (.user "boom") hnc herr⟩

/-! ### Association list lemmas -/

theorem alookup_mem {α : Type} {m : List (String × α)} {k : String} {v : α}
    (h : alookup m k = some v) : (k, v) ∈ m := by
  induction m with
  | nil => simp [alookup] at h
  | cons kv rest ih =>
    rw [alookup] at h
    split at h
    · rename_i hk
      have hv : v = kv.2 := by simpa using h.symm
      subst hv
      subst hk
      exact List.mem_cons_self _ _
    · exact List.mem_cons_of_mem _ (ih h)

theorem alookup_of_mem {α : Type} {m : List (String × α)} {k : String} {v : α}
    (hnd : (m.map Prod.fst).Nodup) (h : (k, v) ∈ m) : alookup m k = some v := by
  induction m with
  | nil => simp at h
  | cons kv rest ih =>
    rw [List.map_cons, List.nodup_cons] at hnd
    rw [alookup]
    rcases List.mem_cons.mp h with heq | hmem
    · subst heq
      simp
    · have hk : kv.1 ≠ k := by
        intro hc
        exact hnd.1 (hc ▸ (List.mem_map.mpr ⟨(k, v), hmem, rfl⟩))
      rw [if_neg hk]
      exact ih hnd.2 hmem

theorem alookup_isSome_iff {α : Type} (m : List (String × α)) (k : String) :
    (alookup m k).isSome = true ↔ k ∈ m.map Prod.fst := by
  induction m with
  | nil => simp [alookup]
  | cons kv rest ih =>
    rw [alookup]
    by_cases hk : kv.1 = k
    · simp [hk]
    · simp only [if_neg hk, List.map_cons, List.mem_cons, ih]
      constructor
      · exact fun h => Or.inr h
      · rintro (h | h)
        · exact absurd h.symm hk
        · exact h

theorem alookup_eq_none {α : Type} {m : List (String × α)} {k : String}
    (h : k ∉ m.map Prod.fst) : alookup m k = none := by
  cases hl : alookup m k with
  | none => rfl
  | some v =>
    have : (alookup m k).isSome = true := by rw [hl]; rfl
    exact absurd ((alookup_isSome_iff m k).mp this) h

theorem alookup_base (names : List String) (t : String) :
    alookup (names.map (fun n => (n, ([] : List String)))) t =
      if t ∈ names then some [] else none := by
  induction names with
  | nil => simp [alookup]
  | cons n rest ih =>
    rw [List.map_cons, alookup]
    by_cases hn : n = t
    · subst hn
      simp
    · simp only [ih]
      by_cases hm : t ∈ rest
      · have ht : t ∈ n :: rest := List.mem_cons_of_mem _ hm
        simp [if_neg hn, hm, ht]
      · have : ¬ t ∈ n :: rest := by
          rw [List.mem_cons]
          rintro (hc | hc)
          · exact hn hc.symm
          · exact hm hc
        simp [if_neg hn, hm, this]

theorem alookup_addDependent {m : List (String × List String)} (p name t : String) :
    alookup (addDependent m p name) t =
      (alookup m t).map
        (fun l => if t = p then (if name ∈ l then l else l ++ [name]) else l) := by
  induction m with
  | nil => simp [alookup, addDependent]
  | cons kv rest ih =>
    rw [addDependent, List.map_cons]
    by_cases hkp : kv.1 = p
    · rw [if_pos hkp, alookup, alookup]
      by_cases hkt : kv.1 = t
      · have htp : t = p := by rw [← hkt, hkp]
        simp [hkt, htp]
      · simp only [if_neg hkt]
        rw [← addDependent, ih]
    · rw [if_neg hkp, alookup, alookup]
      by_cases hkt : kv.1 = t
      · have htp : t ≠ p := by rw [← hkt]; exact hkp
        simp [hkt, htp]
      · simp only [if_neg hkt]
        rw [← addDependent, ih]

theorem alookup_innerFold (name : String) :
    ∀ (ps : List String) (acc : List (String × List String)), ps.Nodup →
      (∀ t, t ∈ ps → ∀ l, alookup acc t = some l → name ∉ l) →
      ∀ t, alookup (ps.foldl (fun a p => addDependent a p name) acc) t =
        (alookup acc t).map (fun l => if t ∈ ps then l ++ [name] else l) := by
  intro ps
  induction ps with
  | nil =>
    intro acc _ _ t
    simp
  | cons p rest ih =>
    intro acc hnd hfresh t
    rw [List.nodup_cons] at hnd
    rw [List.foldl_cons]
    have hacc1 : ∀ u, alookup (addDependent acc p name) u =
        (alookup acc u).map (fun l => if u = p then l ++ [name] else l) := by
      intro u
      rw [alookup_addDependent]
      cases hl : alookup acc u with
      | none => simp
      | some l =>
        simp only [Option.map_some']
        by_cases hup : u = p
        · have hnl : name ∉ l := hfresh p (List.mem_cons_self _ _) l (hup ▸ hl)
          simp [hup, hnl]
        · simp [hup]
    have hfresh1 : ∀ u, u ∈ rest → ∀ l, alookup (addDependent acc p name) u = some l →
        name ∉ l := by
      intro u hu l hl
      rw [hacc1 u] at hl
      have hup : u ≠ p := fun hc => hnd.1 (hc ▸ hu)
      cases hl0 : alookup acc u with
      | none => rw [hl0] at hl; simp at hl
      | some l0 =>
        rw [hl0] at hl
        simp only [Option.map_some', if_neg hup] at hl
        have : l0 = l := by simpa using hl
        exact this ▸ hfresh u (List.mem_cons_of_mem _ hu) l0 hl0
    rw [ih (addDependent acc p name) hnd.2 hfresh1 t, hacc1 t]
    cases hl : alookup acc t with
    | none => simp
    | some l =>
      simp only [Option.map_some']
      by_cases htp : t = p
      · have htrest : t ∉ rest := htp ▸ hnd.1
        simp [htp, htrest, hnd.1]
      · by_cases htr : t ∈ rest
        · simp [htp, htr]
        · have : ¬ t ∈ p :: rest := by
            rw [List.mem_cons]
            rintro (hc | hc)
            · exact htp hc
            · exact htr hc
          simp [htp, htr, this]

theorem alookup_outerFold :
    ∀ (ds : List (String × List String)) (acc : List (String × List String)),
      (ds.map Prod.fst).Nodup → (∀ nd, nd ∈ ds → nd.2.Nodup) →
      (∀ nd, nd ∈ ds → ∀ t l, alookup acc t = some l → nd.1 ∉ l) →
      ∀ t, alookup (ds.foldl
          (fun acc2 nd => nd.2.foldl (fun a p => addDependent a p nd.1) acc2) acc) t =
        (alookup acc t).map
          (fun l => l ++ (ds.filter (fun nd => t ∈ nd.2)).map Prod.fst) := by
  intro ds
  induction ds with
  | nil =>
    intro acc _ _ _ t
    simp
  | cons nd rest ih =>
    intro acc hkeys hvals hfresh t
    rw [List.map_cons, List.nodup_cons] at hkeys
    rw [List.foldl_cons]
    have hacc1 := alookup_innerFold nd.1 nd.2 acc (hvals nd (List.mem_cons_self _ _))
      (fun u _ l hl => hfresh nd (List.mem_cons_self _ _) u l hl)
    have hfresh1 : ∀ nd2, nd2 ∈ rest → ∀ u l,
        alookup (nd.2.foldl (fun a p => addDependent a p nd.1) acc) u = some l →
        nd2.1 ∉ l := by
      intro nd2 hnd2 u l hl
      rw [hacc1 u] at hl
      cases hl0 : alookup acc u with
      | none => rw [hl0] at hl; simp at hl
      | some l0 =>
        rw [hl0] at hl
        simp only [Option.map_some'] at hl
        have hne : nd2.1 ≠ nd.1 := by
          intro hc
          exact hkeys.1 (hc ▸ (List.mem_map.mpr ⟨nd2, hnd2, rfl⟩))
        have hn0 : nd2.1 ∉ l0 := hfresh nd2 (List.mem_cons_of_mem _ hnd2) u l0 hl0
        have hll : (if u ∈ nd.2 then l0 ++ [nd.1] else l0) = l := by simpa using hl
        by_cases hu : u ∈ nd.2
        · rw [← hll, if_pos hu]
          intro hc
          rcases List.mem_append.mp hc with hc1 | hc1
          · exact hn0 hc1
          · exact hne (by simpa using hc1)
        · rw [← hll, if_neg hu]
          exact hn0
    rw [ih _ hkeys.2 (fun nd2 h2 => hvals nd2 (List.mem_cons_of_mem _ h2)) hfresh1 t,
      hacc1 t]
    cases hl : alookup acc t with
    | none => simp
    | some l =>
      simp only [Option.map_some', List.filter_cons]
      by_cases htm : t ∈ nd.2
      · simp only [if_pos (by simpa using htm)]
        simp [htm, List.append_assoc]
      · simp only [if_neg (by simpa using htm)]
        simp [htm]

theorem alookup_mkDependents (names : List String)
    (deps : List (String × List String))
    (hkeys : (deps.map Prod.fst).Nodup)
    (hvals : ∀ nd, nd ∈ deps → nd.2.Nodup) (t : String) :
    alookup (mkDependents names deps) t =
      if t ∈ names then some ((deps.filter (fun nd => t ∈ nd.2)).map Prod.fst)
      else none := by
  rw [mkDependents, alookup_outerFold deps _ hkeys hvals
    (fun nd _ u l hl => by
      rw [alookup_base] at hl
      split at hl
      · have : l = [] := by simpa using hl.symm
        simp [this]
      · simp at hl) t]
  rw [alookup_base]
  split
  · simp
  · simp

theorem mem_dependentsOf (names : List String) (deps : List (String × List String))
    (hkeys : (deps.map Prod.fst).Nodup)
    (hvals : ∀ nd, nd ∈ deps → nd.2.Nodup) (t m : String) :
    m ∈ alookupD (mkDependents names deps) t [] ↔
      t ∈ names ∧ m ∈ deps.map Prod.fst ∧ t ∈ alookupD deps m [] := by
  rw [alookupD, alookup_mkDependents names deps hkeys hvals]
  split
  · rename_i htn
    simp only [Option.getD_some]
    rw [List.mem_map]
    constructor
    · rintro ⟨nd, hnd, rfl⟩
      rw [List.mem_filter] at hnd
      refine ⟨htn, List.mem_map.mpr ⟨nd, hnd.1, rfl⟩, ?_⟩
      have : alookup deps nd.1 = some nd.2 := alookup_of_mem hkeys hnd.1
      rw [alookupD, this, Option.getD_some]
      simpa using hnd.2
    · rintro ⟨-, hm, ht⟩
      rcases List.mem_map.mp hm with ⟨nd, hnd, rfl⟩
      have hsome : alookup deps nd.1 = some nd.2 := alookup_of_mem hkeys hnd
      rw [alookupD, hsome, Option.getD_some] at ht
      exact ⟨nd, List.mem_filter.mpr ⟨hnd, by simpa using ht⟩, rfl⟩
  · rename_i htn
    simp only [Option.getD_none, List.not_mem_nil, false_iff]
    intro hc
    exact htn hc.1

theorem dependentsOf_nodup (names : List String) (deps : List (String × List String))
    (hkeys : (deps.map Prod.fst).Nodup)
    (hvals : ∀ nd, nd ∈ deps → nd.2.Nodup) (t : String) :
    (alookupD (mkDependents names deps) t []).Nodup := by
  rw [alookupD, alookup_mkDependents names deps hkeys hvals]
  split
  · simp only [Option.getD_some]
    exact ((List.filter_sublist deps).map Prod.fst).nodup hkeys
  · simp

/-! ### Graph builder facts -/

theorem depsOfTask_ok_spec {allNames : List String} {name : String} {info : TaskInfo}
    {ds : List String} {ip : Option String} (hp : info.params.Nodup)
    (h : depsOfTask allNames name info = .ok (ds, ip)) :
    ds.Nodup ∧ ∀ d ∈ ds, d ∈ allNames := by
  have hfil : (info.params.filter (fun p => decide (p ∈ allNames))).Nodup :=
    hp.filter _
  have hsub : ∀ d ∈ info.params.filter (fun p => decide (p ∈ allNames)),
      d ∈ allNames := by
    intro d hd
    have := List.mem_filter.mp hd
    simpa using this.2
  unfold depsOfTask at h
  by_cases hseed : info.seed
  · rw [if_pos hseed] at h
    have hds : ds = [] := by
      have h2 := h
      simp only [Except.ok.injEq, Prod.mk.injEq] at h2
      exact h2.1.symm
    subst hds
    exact ⟨List.nodup_nil, by simp⟩
  · rw [if_neg hseed] at h
    cases hms : info.mapSource with
    | none =>
      simp only [hms] at h
      have hds : ds = info.params.filter (fun p => decide (p ∈ allNames)) := by
        have h2 := h
        simp only [Except.ok.injEq, Prod.mk.injEq] at h2
        exact h2.1.symm
      subst hds
      exact ⟨hfil, hsub⟩
    | some src =>
      cases src with
      | ofName srcName =>
        simp only [hms] at h
        by_cases hsrc : srcName ∈ allNames
        · rw [if_pos hsrc] at h
          split at h
          · exact absurd h (by simp)
          · have hds : ds =
                if srcName ∈ info.params.filter (fun p => decide (p ∈ allNames))
                then info.params.filter (fun p => decide (p ∈ allNames))
                else info.params.filter (fun p => decide (p ∈ allNames)) ++ [srcName] := by
              have h2 := h
              simp only [Except.ok.injEq, Prod.mk.injEq] at h2
              exact h2.1.symm
            subst hds
            split
            · exact ⟨hfil, hsub⟩
            · rename_i hmem
              constructor
              · rw [List.nodup_append]
                exact ⟨hfil, List.nodup_singleton _, by
                  intro x hx hx2
                  have hxe : x = srcName := by simpa using hx2
                  exact hmem (hxe ▸ hx)⟩
              · intro d hd
                rcases List.mem_append.mp hd with hd1 | hd1
                · exact hsub d hd1
                · have hde : d = srcName := by simpa using hd1
                  exact hde ▸ hsrc
        · rw [if_neg hsrc] at h
          exact absurd h (by simp)
      | ofList items =>
        simp only [hms] at h
        split at h
        · exact absurd h (by simp)
        · have hds : ds = info.params.filter (fun p => decide (p ∈ allNames)) := by
            have h2 := h
            simp only [Except.ok.injEq, Prod.mk.injEq] at h2
            exact h2.1.symm
          subst hds
          exact ⟨hfil, hsub⟩

theorem buildDeps_spec (allNames : List String) :
    ∀ (tasks : Tasks) (deps : List (String × List String))
      (ips : List (String × String)),
      (∀ p ∈ tasks, p.2.params.Nodup) →
      buildDeps allNames tasks = .ok (deps, ips) →
      deps.map Prod.fst = tasks.map Prod.fst ∧
      ∀ nd ∈ deps, nd.2.Nodup ∧ ∀ d ∈ nd.2, d ∈ allNames := by
  intro tasks
  induction tasks with
  | nil =>
    intro deps ips _ h
    rw [buildDeps] at h
    have hd : deps = [] := by
      have h2 := h
      simp only [Except.ok.injEq, Prod.mk.injEq] at h2
      exact h2.1.symm
    subst hd
    simp
  | cons p rest ih =>
    intro deps ips hp h
    rw [buildDeps] at h
    split at h
    · exact absurd h (by simp)
    · rename_i ds ip hdt
      split at h
      · exact absurd h (by simp)
      · rename_i restDeps restIps hbd
        simp only [Except.ok.injEq, Prod.mk.injEq] at h
        obtain ⟨hdeps, -⟩ := h
        subst hdeps
        obtain ⟨hkeys, hvals⟩ := ih restDeps restIps
          (fun q hq => hp q (List.mem_cons_of_mem _ hq)) hbd
        obtain ⟨hnd, hsub⟩ := depsOfTask_ok_spec (hp p (List.mem_cons_self _ _)) hdt
        refine ⟨by simpa using hkeys, ?_⟩
        intro nd hnd2
        rcases List.mem_cons.mp hnd2 with heq | hmem
        · subst heq
          exact ⟨hnd, hsub⟩
        · exact hvals nd hmem

/-! ### Kahn loop lemmas -/

theorem length_filter_add_not {α : Type} (l : List α) (p : α → Bool) :
    (l.filter p).length + (l.filter (fun a => !(p a))).length = l.length := by
  induction l with
  | nil => simp
  | cons a rest ih =>
    cases hp : p a <;> simp [List.filter_cons, hp] <;> omega

theorem length_filter_eq_one {α : Type} [DecidableEq α] :
    ∀ (l : List α) (a : α), l.Nodup → a ∈ l →
      (l.filter (fun b => b = a)).length = 1 := by
  intro l
  induction l with
  | nil => intro a _ ha; simp at ha
  | cons b rest ih =>
    intro a hnd ha
    rw [List.nodup_cons] at hnd
    by_cases hb : b = a
    · subst hb
      have hrest : rest.filter (fun c => decide (c = b)) = [] := by
        rw [List.filter_eq_nil_iff]
        intro c hc
        simp only [decide_eq_true_eq]
        intro hcb
        exact hnd.1 (hcb ▸ hc)
      simp [List.filter_cons, hrest]
    · have ha2 : a ∈ rest := by
        rcases List.mem_cons.mp ha with hc | hc
        · exact absurd hc.symm hb
        · exact hc
      have hba : ¬ (decide (b = a) = true) := by simpa using hb
      rw [List.filter_cons, if_neg hba]
      exact ih a hnd.2 ha2

theorem decFold_spec :
    ∀ (ds : List String), ds.Nodup → ∀ (deg : String → Int) (q : List String),
      (∀ n, (ds.foldl (fun (s : (String → Int) × List String) d =>
          (fun m => if m = d then s.1 m - 1 else s.1 m,
           if s.1 d - 1 = 0 then s.2 ++ [d] else s.2)) (deg, q)).1 n =
        if n ∈ ds then deg n - 1 else deg n) ∧
      (ds.foldl (fun (s : (String → Int) × List String) d =>
          (fun m => if m = d then s.1 m - 1 else s.1 m,
           if s.1 d - 1 = 0 then s.2 ++ [d] else s.2)) (deg, q)).2 =
        q ++ ds.filter (fun d => deg d = 1) := by
  intro ds
  induction ds with
  | nil =>
    intro _ deg q
    simp
  | cons d rest ih =>
    intro hnd deg q
    rw [List.nodup_cons] at hnd
    rw [List.foldl_cons]
    obtain ⟨ih1, ih2⟩ := ih hnd.2
      (fun m => if m = d then deg m - 1 else deg m)
      (if deg d - 1 = 0 then q ++ [d] else q)
    constructor
    · intro n
      rw [ih1 n]
      by_cases hnr : n ∈ rest
      · have hne : n ≠ d := fun hc => hnd.1 (hc ▸ hnr)
        have hmem : n ∈ d :: rest := List.mem_cons_of_mem _ hnr
        simp [hnr, hne, hmem]
      · by_cases hne : n = d
        · subst hne
          simp [hnr, hnd.1]
        · have hmem : ¬ n ∈ d :: rest := by
            rw [List.mem_cons]
            rintro (hc | hc)
            · exact hne hc
            · exact hnr hc
          simp [hnr, hne, hmem]
    · rw [ih2]
      have hfil : rest.filter (fun c => decide ((if c = d then deg c - 1 else deg c) = 1)) =
          rest.filter (fun c => decide (deg c = 1)) := by
        apply List.filter_congr
        intro c hc
        have hcd : c ≠ d := fun h => hnd.1 (h ▸ hc)
        simp [hcd]
      rw [hfil, List.filter_cons]
      by_cases hd1 : deg d = 1
      · have hz : deg d - 1 = 0 := by omega
        simp [hz, hd1, List.append_assoc]
      · have hz : ¬ (deg d - 1 = 0) := by omega
        simp [hz, hd1]

theorem processTask_spec (dependents : List (String × List String)) (t : String)
    (deg : String → Int) (q : List String)
    (hnd : (alookupD dependents t []).Nodup) :
    (∀ n, (processTask dependents t (deg, q)).1 n =
      if n ∈ alookupD dependents t [] then deg n - 1 else deg n) ∧
    (processTask dependents t (deg, q)).2 =
      q ++ (alookupD dependents t []).filter (fun d => deg d = 1) := by
  unfold processTask
  exact decFold_spec (alookupD dependents t []) hnd deg q

theorem roundFold_spec (dependents : List (String × List String))
    (hnd : ∀ t, (alookupD dependents t []).Nodup) :
    ∀ (ts : List String), ts.Nodup → ∀ (deg : String → Int) (q : List String),
      q.Nodup → (∀ n ∈ q, deg n ≤ 0) →
      (∀ n, (ts.foldl (fun s t => processTask dependents t s) (deg, q)).1 n =
          deg n - ((ts.filter (fun t => n ∈ alookupD dependents t [])).length : Int)) ∧
      (ts.foldl (fun s t => processTask dependents t s) (deg, q)).2.Nodup ∧
      (∀ n, n ∈ (ts.foldl (fun s t => processTask dependents t s) (deg, q)).2 →
        (ts.foldl (fun s t => processTask dependents t s) (deg, q)).1 n ≤ 0) ∧
      (∀ n, n ∈ (ts.foldl (fun s t => processTask dependents t s) (deg, q)).2 ↔
        n ∈ q ∨ (1 ≤ deg n ∧
          (ts.foldl (fun s t => processTask dependents t s) (deg, q)).1 n ≤ 0)) := by
  intro ts
  induction ts with
  | nil =>
    intro _ deg q hq hqle
    refine ⟨by simp, by simpa using hq, by simpa using hqle, ?_⟩
    intro n
    simp only [List.foldl_nil]
    constructor
    · exact fun h => Or.inl h
    · rintro (h | ⟨h1, h2⟩)
      · exact h
      · exact absurd h2 (by omega)
  | cons t rts ih =>
    intro hts deg q hq hqle
    rw [List.nodup_cons] at hts
    rw [List.foldl_cons]
    obtain ⟨p1, p2⟩ := processTask_spec dependents t deg q (hnd t)
    have hq1 : (processTask dependents t (deg, q)).2.Nodup := by
      rw [p2]
      refine List.Nodup.append hq ((hnd t).filter _) ?_
      intro x hx hx2
      have hxq := hqle x hx
      have hx1 : deg x = 1 := by simpa using (List.mem_filter.mp hx2).2
      omega
    have hq1le : ∀ n ∈ (processTask dependents t (deg, q)).2,
        (processTask dependents t (deg, q)).1 n ≤ 0 := by
      intro n hn
      rw [p2] at hn
      rw [p1 n]
      rcases List.mem_append.mp hn with hn1 | hn1
      · have := hqle n hn1
        split <;> omega
      · have hmem := (List.mem_filter.mp hn1).1
        have hdeg : deg n = 1 := by simpa using (List.mem_filter.mp hn1).2
        rw [if_pos hmem]
        omega
    obtain ⟨r1, r2, r3, r4⟩ := ih hts.2 (processTask dependents t (deg, q)).1
      (processTask dependents t (deg, q)).2 hq1 hq1le
    refine ⟨?_, r2, r3, ?_⟩
    · intro n
      rw [r1 n, p1 n, List.filter_cons]
      by_cases hmem : n ∈ alookupD dependents t []
      · rw [if_pos hmem, if_pos (by simpa using hmem)]
        simp only [List.length_cons]
        push_cast
        ring
      · rw [if_neg hmem, if_neg (by simpa using hmem)]
    · intro n
      rw [r4 n]
      constructor
      · rintro (hn | ⟨h1, h2⟩)
        · rw [p2] at hn
          rcases List.mem_append.mp hn with hn1 | hn1
          · exact Or.inl hn1
          · have hmem := (List.mem_filter.mp hn1).1
            have hdeg : deg n = 1 := by simpa using (List.mem_filter.mp hn1).2
            refine Or.inr ⟨by omega, ?_⟩
            rw [r1 n, p1 n, if_pos hmem]
            have hc : (0 : Int) ≤
                ((rts.filter (fun u => n ∈ alookupD dependents u [])).length : Int) := by
              positivity
            omega
        · rw [p1 n] at h1
          refine Or.inr ⟨?_, h2⟩
          by_cases hmem : n ∈ alookupD dependents t []
          · rw [if_pos hmem] at h1
            omega
          · rw [if_neg hmem] at h1
            omega
      · rintro (hn | ⟨h1, h2⟩)
        · left
          rw [p2]
          exact List.mem_append_left _ hn
        · by_cases hd1 : 1 ≤ (processTask dependents t (deg, q)).1 n
          · exact Or.inr ⟨hd1, h2⟩
          · left
            rw [p2]
            refine List.mem_append_right _ ?_
            rw [p1 n] at hd1
            by_cases hmem : n ∈ alookupD dependents t []
            · rw [if_pos hmem] at hd1
              have hdeg : deg n = 1 := by omega
              exact List.mem_filter.mpr ⟨hmem, by simpa using hdeg⟩
            · rw [if_neg hmem] at hd1
              exact absurd h1 hd1

theorem nodup_length_le (l names : List String) (hnd : l.Nodup)
    (hsub : ∀ x ∈ l, x ∈ names) : l.length ≤ names.length := by
  have h1 : l.toFinset.card = l.length := List.toFinset_card_of_nodup hnd
  have h2 : l.toFinset ⊆ names.toFinset := by
    intro x hx
    rw [List.mem_toFinset] at hx ⊢
    exact hsub x hx
  calc l.length = l.toFinset.card := h1.symm
    _ ≤ names.toFinset.card := Finset.card_le_card h2
    _ ≤ names.length := List.toFinset_card_le names

theorem depsF_spec (names : List String) (deps : List (String × List String))
    (_hkeys : deps.map Prod.fst = names)
    (hvals : ∀ nd ∈ deps, nd.2.Nodup ∧ ∀ d ∈ nd.2, d ∈ names) (n : String) :
    (alookupD deps n []).Nodup ∧ ∀ d ∈ alookupD deps n [], d ∈ names := by
  rw [alookupD]
  cases hl : alookup deps n with
  | none => simp
  | some l =>
    simp only [Option.getD_some]
    exact hvals (n, l) (alookup_mem hl)

theorem count_convert (names : List String) (deps : List (String × List String))
    (hnames : names.Nodup) (hkeys : deps.map Prod.fst = names)
    (hvals : ∀ nd ∈ deps, nd.2.Nodup ∧ ∀ d ∈ nd.2, d ∈ names)
    (tier : List String) (htier : tier.Nodup) (hsubt : ∀ t ∈ tier, t ∈ names)
    (n : String) (hn : n ∈ names) :
    (tier.filter (fun t => n ∈ alookupD (mkDependents names deps) t [])).length =
      ((alookupD deps n []).filter (fun d => d ∈ tier)).length := by
  have hkeysnd : (deps.map Prod.fst).Nodup := by rw [hkeys]; exact hnames
  have hvnd : ∀ nd, nd ∈ deps → nd.2.Nodup := fun nd h => (hvals nd h).1
  have hstep : tier.filter (fun t => n ∈ alookupD (mkDependents names deps) t []) =
      tier.filter (fun t => t ∈ alookupD deps n []) := by
    apply List.filter_congr
    intro t ht
    have hiff := mem_dependentsOf names deps hkeysnd hvnd t n
    have htn : t ∈ names := hsubt t ht
    have hnk : n ∈ deps.map Prod.fst := by rw [hkeys]; exact hn
    by_cases hmem : t ∈ alookupD deps n []
    · simp [hiff, htn, hnk, hmem]
    · simp [hiff, htn, hnk, hmem]
  rw [hstep]
  have hnd1 : (tier.filter (fun t => t ∈ alookupD deps n [])).Nodup :=
    htier.filter _
  have hnd2 : ((alookupD deps n []).filter (fun d => d ∈ tier)).Nodup :=
    (depsF_spec names deps hkeys hvals n).1.filter _
  have hperm : List.Perm (tier.filter (fun t => t ∈ alookupD deps n []))
      ((alookupD deps n []).filter (fun d => d ∈ tier)) := by
    rw [List.perm_ext_iff_of_nodup hnd1 hnd2]
    intro a
    rw [List.mem_filter, List.mem_filter]
    constructor
    · rintro ⟨h1, h2⟩
      exact ⟨by simpa using h2, by simpa using h1⟩
    · rintro ⟨h1, h2⟩
      exact ⟨by simpa using h2, by simpa using h1⟩
  exact hperm.length_eq

theorem filter_diff_length (dl processed tier : List String)
    (hdisj : ∀ d ∈ tier, d ∉ processed) :
    ((dl.filter (fun d => d ∉ processed)).length : Int) -
      ((dl.filter (fun d => d ∈ tier)).length : Int) =
      ((dl.filter (fun d => d ∉ processed ++ tier)).length : Int) := by
  have hsplit := length_filter_add_not (dl.filter (fun d => d ∉ processed))
    (fun d => d ∈ tier)
  rw [List.filter_filter, List.filter_filter] at hsplit
  have h1 : dl.filter (fun d => decide (d ∈ tier) && decide (d ∉ processed)) =
      dl.filter (fun d => d ∈ tier) := by
    apply List.filter_congr
    intro d _
    by_cases hd : d ∈ tier
    · simp [hd, hdisj d hd]
    · simp [hd]
  have h2 : dl.filter (fun d => !(decide (d ∈ tier)) && decide (d ∉ processed)) =
      dl.filter (fun d => d ∉ processed ++ tier) := by
    apply List.filter_congr
    intro d _
    by_cases hd : d ∈ tier <;> by_cases hp : d ∈ processed <;>
      simp [hd, hp, List.mem_append]
  rw [h1, h2] at hsplit
  omega

theorem kahnRound (names : List String) (deps : List (String × List String))
    (hnames : names.Nodup) (hkeys : deps.map Prod.fst = names)
    (hvals : ∀ nd ∈ deps, nd.2.Nodup ∧ ∀ d ∈ nd.2, d ∈ names)
    (processed queue : List String) (deg : String → Int)
    (inv : KahnInv names (fun n => alookupD deps n []) processed queue deg) :
    KahnInv names (fun n => alookupD deps n []) (processed ++ queue)
      (queue.foldl (fun s t => processTask (mkDependents names deps) t s)
        (deg, ([] : List String))).2
      (queue.foldl (fun s t => processTask (mkDependents names deps) t s)
        (deg, ([] : List String))).1 := by
  have hkeysnd : (deps.map Prod.fst).Nodup := by rw [hkeys]; exact hnames
  have hdnodup : ∀ t, (alookupD (mkDependents names deps) t []).Nodup :=
    dependentsOf_nodup names deps hkeysnd (fun nd h => (hvals nd h).1)
  obtain ⟨hpnd, hqnd, hdisj⟩ := List.nodup_append.mp inv.nodup
  obtain ⟨r1, r2, r3, r4⟩ :=
    roundFold_spec (mkDependents names deps) hdnodup queue hqnd deg []
      List.nodup_nil (by simp)
  have hqsub : ∀ t ∈ queue, t ∈ names := fun t ht =>
    inv.sub t (List.mem_append_right _ ht)
  have hcount : ∀ n ∈ names,
      ((queue.filter (fun t => n ∈ alookupD (mkDependents names deps) t [])).length) =
        ((alookupD deps n []).filter (fun d => d ∈ queue)).length :=
    fun n hn => count_convert names deps hnames hkeys hvals queue hqnd hqsub n hn
  have hmono : ∀ n, (queue.foldl (fun s t => processTask (mkDependents names deps) t s)
      (deg, ([] : List String))).1 n ≤ deg n := by
    intro n
    rw [r1 n]
    have : (0 : Int) ≤
        ((queue.filter (fun t => n ∈ alookupD (mkDependents names deps) t [])).length :
          Int) := by positivity
    omega
  have hnewQ : ∀ n, n ∈ (queue.foldl (fun s t => processTask (mkDependents names deps) t s)
      (deg, ([] : List String))).2 →
      1 ≤ deg n := by
    intro n hn
    rcases (r4 n).mp hn with hc | hc
    · simp at hc
    · exact hc.1
  have hnewQnames : ∀ n, n ∈ (queue.foldl
      (fun s t => processTask (mkDependents names deps) t s)
      (deg, ([] : List String))).2 → n ∈ names := by
    intro n hn
    rcases (r4 n).mp hn with hc | hc
    · simp at hc
    · obtain ⟨h1, h2⟩ := hc
      rw [r1 n] at h2
      have hpos : 0 <
          (queue.filter (fun t => n ∈ alookupD (mkDependents names deps) t [])).length := by
        by_contra hz
        push_neg at hz
        interval_cases h : (queue.filter
          (fun t => n ∈ alookupD (mkDependents names deps) t [])).length
        all_goals omega
      obtain ⟨t, htf⟩ := List.exists_mem_of_length_pos hpos
      have htmem := List.mem_filter.mp htf
      have hchar := (mem_dependentsOf names deps hkeysnd
        (fun nd h => (hvals nd h).1) t n).mp (by simpa using htmem.2)
      rw [← hkeys]
      exact hchar.2.1
  have hdegEq2 : ∀ n ∈ names,
      (queue.foldl (fun s t => processTask (mkDependents names deps) t s)
        (deg, ([] : List String))).1 n =
      (((alookupD deps n []).filter (fun d => d ∉ processed ++ queue)).length : Int) := by
    intro n hn
    rw [r1 n]
    have hd1 := inv.degEq n hn
    have hd2 := hcount n hn
    have hd3 := filter_diff_length (alookupD deps n []) processed queue
      (fun d hd => fun hc => hdisj hc hd)
    simp only at hd1
    omega
  refine ⟨?_, ?_, ?_, ?_, ?_⟩
  · rw [List.nodup_append]
    refine ⟨inv.nodup, r2, ?_⟩
    intro a ha hb
    have h1 := hnewQ a hb
    have h2 := inv.memLe a ha
    omega
  · intro n hn
    rcases List.mem_append.mp hn with h1 | h1
    · exact inv.sub n h1
    · exact hnewQnames n h1
  · intro n hn
    exact hdegEq2 n hn
  · intro n hn hnp hlen
    have hdeg1 : 1 ≤ deg n := by
      by_contra hlt
      push_neg at hlt
      have hd1 := inv.degEq n hn
      simp only at hd1
      have hzero : ((alookupD deps n []).filter (fun d => d ∉ processed)).length = 0 := by
        omega
      have hq := inv.queueZero n hn (fun hc => hnp (List.mem_append_left _ hc)) hzero
      exact hnp (List.mem_append_right _ hq)
    have hz : (queue.foldl (fun s t => processTask (mkDependents names deps) t s)
        (deg, ([] : List String))).1 n = 0 := by
      rw [hdegEq2 n hn, hlen]
      rfl
    exact (r4 n).mpr (Or.inr ⟨hdeg1, by rw [hz]⟩)
  · intro n hn
    rcases List.mem_append.mp hn with h1 | h1
    · have := inv.memLe n h1
      have := hmono n
      omega
    · exact r3 n h1

theorem tierLoop_master (names : List String) (deps : List (String × List String))
    (hnames : names.Nodup) (hkeys : deps.map Prod.fst = names)
    (hvals : ∀ nd ∈ deps, nd.2.Nodup ∧ ∀ d ∈ nd.2, d ∈ names) :
    ∀ (fuel : Nat) (queue : List String) (deg : String → Int)
      (tiers : List (List String)),
      KahnInv names (fun n => alookupD deps n []) tiers.flatten queue deg →
      names.length < fuel + tiers.flatten.length →
      (∀ i t, t ∈ (tiers.getD i []) → ∀ d ∈ alookupD deps t [],
          d ∈ (tiers.take i).flatten) →
      ((tierLoop (mkDependents names deps) fuel queue deg tiers).flatten.Nodup ∧
       (∀ n ∈ (tierLoop (mkDependents names deps) fuel queue deg tiers).flatten,
          n ∈ names) ∧
       (∀ n ∈ names,
          n ∉ (tierLoop (mkDependents names deps) fuel queue deg tiers).flatten →
          ((alookupD deps n []).filter (fun d =>
            d ∉ (tierLoop (mkDependents names deps) fuel queue deg tiers).flatten)).length
            ≠ 0) ∧
       (∀ i t,
          t ∈ ((tierLoop (mkDependents names deps) fuel queue deg tiers).getD i []) →
          ∀ d ∈ alookupD deps t [],
            d ∈ ((tierLoop (mkDependents names deps) fuel queue deg tiers).take
              i).flatten)) := by
  intro fuel
  induction fuel with
  | zero =>
    intro queue deg tiers inv hmeasure _
    exfalso
    have hle := nodup_length_le tiers.flatten names
      ((List.nodup_append.mp inv.nodup).1)
      (fun x hx => inv.sub x (List.mem_append_left _ hx))
    omega
  | succ fuel ih =>
    intro queue deg tiers inv hmeasure htiers
    cases queue with
    | nil =>
      rw [tierLoop]
      refine ⟨(List.nodup_append.mp inv.nodup).1,
        (fun n hn => inv.sub n (List.mem_append_left _ hn)), ?_, htiers⟩
      intro n hn hnotin hlen
      exact absurd (inv.queueZero n hn hnotin hlen) (by simp)
    | cons a q2 =>
      rw [tierLoop]
      have hfl : (tiers ++ [a :: q2]).flatten = tiers.flatten ++ (a :: q2) := by
        simp
      have hinv2 := kahnRound names deps hnames hkeys hvals tiers.flatten (a :: q2)
        deg inv
      have hinv3 : KahnInv names (fun n => alookupD deps n [])
          (tiers ++ [a :: q2]).flatten
          ((a :: q2).foldl (fun s t => processTask (mkDependents names deps) t s)
            (deg, ([] : List String))).2
          ((a :: q2).foldl (fun s t => processTask (mkDependents names deps) t s)
            (deg, ([] : List String))).1 := by
        rw [hfl]
        exact hinv2
      have hmeasure2 : names.length < fuel + (tiers ++ [a :: q2]).flatten.length := by
        rw [hfl, List.length_append]
        simp only [List.length_cons]
        omega
      have htiers2 : ∀ i t, t ∈ ((tiers ++ [a :: q2]).getD i []) →
          ∀ d ∈ alookupD deps t [], d ∈ ((tiers ++ [a :: q2]).take i).flatten := by
        intro i t ht d hd
        by_cases hi : i < tiers.length
        · have hgd : (tiers ++ [a :: q2]).getD i [] = tiers.getD i [] := by
            simp [List.getD_eq_getElem?_getD, List.getElem?_append, hi]
          have htk : ((tiers ++ [a :: q2]).take i) = tiers.take i := by
            rw [List.take_append_eq_append_take]
            have hz : i - tiers.length = 0 := by omega
            simp [hz]
          rw [hgd] at ht
          rw [htk]
          exact htiers i t ht d hd
        · by_cases hie : i = tiers.length
          · subst hie
            have hgd : (tiers ++ [a :: q2]).getD tiers.length [] = a :: q2 := by
              simp [List.getD_eq_getElem?_getD, List.getElem?_append]
            have htk : ((tiers ++ [a :: q2]).take tiers.length) = tiers :=
              List.take_left tiers [a :: q2]
            rw [hgd] at ht
            rw [htk]
            have htn : t ∈ names := inv.sub t (List.mem_append_right _ ht)
            have hdeg0 : deg t ≤ 0 := inv.memLe t (List.mem_append_right _ ht)
            have hdegEq := inv.degEq t htn
            simp only at hdegEq
            have hlen0 : ((alookupD deps t []).filter
                (fun d => d ∉ tiers.flatten)).length = 0 := by
              omega
            have hnil := List.length_eq_zero.mp hlen0
            rw [List.filter_eq_nil_iff] at hnil
            have := hnil d hd
            simpa using this
          · have hlen2 : (tiers ++ [a :: q2]).length ≤ i := by
              rw [List.length_append]
              simp only [List.length_singleton]
              omega
            have hgd : (tiers ++ [a :: q2]).getD i [] = [] := by
              simp [List.getD_eq_getElem?_getD, List.getElem?_eq_none hlen2]
            rw [hgd] at ht
            exact absurd ht (by simp)
      exact ih _ _ _ hinv3 hmeasure2 htiers2

theorem buildPlan_ok_inv (tasks : Tasks) (plan : Plan)
    (h : buildPlan tasks = .ok plan) :
    ∃ deps ips,
      buildDeps (tasks.map Prod.fst) tasks = .ok (deps, ips) ∧
      plan.dependencies = deps ∧
      plan.tiers = tierLoop (mkDependents (tasks.map Prod.fst) deps)
        (tasks.length + 1)
        ((tasks.map Prod.fst).filter
          (fun n => ((alookupD deps n []).length : Int) = 0))
        (fun n => ((alookupD deps n []).length : Int)) [] := by
  simp only [buildPlan] at h
  split at h
  · exact absurd h (by simp)
  · rename_i deps ips hbd
    split at h
    · exact absurd h (by simp)
    · have hp := h
      simp only [Except.ok.injEq] at hp
      refine ⟨deps, ips, ?_, ?_, ?_⟩
      · have : (tasks.map Prod.fst) = (tasks.map (fun t => t.1)) := rfl
        rw [this]
        exact hbd
      · rw [← hp]
      · rw [← hp]

/-- Claim C5: for every acyclic registered task set (acyclicity witnessed by
a rank function decreasing along computed dependencies), the tiers of the
computed execution plan partition the full set of task names (the
flattening is duplicate-free and contains exactly the task names), and
every dependency of a task placed in tier i lies in some earlier tier —
in this engine seed values are tier tasks themselves, so earlier tiers
cover both seed values and ordinary tasks. -/
theorem c5_tiers_partition (tasks : Tasks) (plan : Plan) (rank : String → Nat)
    (hkeysnd : (tasks.map Prod.fst).Nodup)
    (hparams : ∀ p ∈ tasks, p.2.params.Nodup)
    (hplan : buildPlan tasks = .ok plan)
    (hrank : ∀ n d, d ∈ alookupD plan.dependencies n [] → rank d < rank n) :
    plan.tiers.flatten.Nodup ∧
    (∀ n, n ∈ plan.tiers.flatten ↔ n ∈ tasks.map Prod.fst) ∧
    (∀ i t, t ∈ plan.tiers.getD i [] → ∀ d ∈ alookupD plan.dependencies t [],
      d ∈ (plan.tiers.take i).flatten) := by
  obtain ⟨deps, ips, hbd, hdeps, htiers⟩ := buildPlan_ok_inv tasks plan hplan
  rw [hdeps] at hrank ⊢
  rw [htiers]
  obtain ⟨hkeys, hvals⟩ := buildDeps_spec (tasks.map Prod.fst) tasks deps ips hparams hbd
  have hfid : ∀ n, (alookupD deps n []).filter
      (fun d => decide (d ∉ ([] : List (List String)).flatten)) = alookupD deps n [] := by
    intro n
    rw [List.filter_eq_self]
    intro d _
    simp
  have hinv0 : KahnInv (tasks.map Prod.fst) (fun n => alookupD deps n [])
      ([] : List (List String)).flatten
      ((tasks.map Prod.fst).filter (fun n => ((alookupD deps n []).length : Int) = 0))
      (fun n => ((alookupD deps n []).length : Int)) := by
    refine ⟨?_, ?_, ?_, ?_, ?_⟩
    · simp only [List.flatten_nil, List.nil_append]
      exact hkeysnd.filter _
    · intro n hn
      simp only [List.flatten_nil, List.nil_append] at hn
      exact (List.mem_filter.mp hn).1
    · intro n _
      show ((alookupD deps n []).length : Int) = _
      rw [hfid n]
    · intro n hn _ hlen
      rw [hfid n] at hlen
      refine List.mem_filter.mpr ⟨hn, ?_⟩
      simp [hlen]
    · intro n hn
      simp only [List.flatten_nil, List.nil_append] at hn
      have h0 := (List.mem_filter.mp hn).2
      simp only [decide_eq_true_eq] at h0
      show ((alookupD deps n []).length : Int) ≤ 0
      omega
  have hmeasure0 : (tasks.map Prod.fst).length <
      (tasks.length + 1) + ([] : List (List String)).flatten.length := by
    rw [List.length_map]
    simp
  obtain ⟨m1, m2, m3, m4⟩ := tierLoop_master (tasks.map Prod.fst) deps hkeysnd hkeys
    hvals (tasks.length + 1)
    ((tasks.map Prod.fst).filter (fun n => ((alookupD deps n []).length : Int) = 0))
    (fun n => ((alookupD deps n []).length : Int)) [] hinv0 hmeasure0
    (by intro i t ht d hd; simp at ht)
  refine ⟨m1, ?_, m4⟩
  intro n
  constructor
  · exact m2 n
  · intro hn
    have hcover : ∀ k m, m ∈ tasks.map Prod.fst → rank m < k →
        m ∈ (tierLoop (mkDependents (tasks.map Prod.fst) deps) (tasks.length + 1)
          ((tasks.map Prod.fst).filter
            (fun u => ((alookupD deps u []).length : Int) = 0))
          (fun u => ((alookupD deps u []).length : Int)) []).flatten := by
      intro k
      induction k with
      | zero => intro m _ hr; exact absurd hr (by omega)
      | succ k ihk =>
        intro m hm hr
        by_contra hni
        have hne := m3 m hm hni
        have hpos : 0 < ((alookupD deps m []).filter (fun d =>
            d ∉ (tierLoop (mkDependents (tasks.map Prod.fst) deps) (tasks.length + 1)
              ((tasks.map Prod.fst).filter
                (fun u => ((alookupD deps u []).length : Int) = 0))
              (fun u => ((alookupD deps u []).length : Int)) []).flatten)).length :=
          Nat.pos_of_ne_zero hne
        obtain ⟨d, hdf⟩ := List.exists_mem_of_length_pos hpos
        have hdmem := List.mem_filter.mp hdf
        have hd1 : d ∈ alookupD deps m [] := hdmem.1
        have hd2 : d ∉ (tierLoop (mkDependents (tasks.map Prod.fst) deps)
            (tasks.length + 1)
            ((tasks.map Prod.fst).filter
              (fun u => ((alookupD deps u []).length : Int) = 0))
            (fun u => ((alookupD deps u []).length : Int)) []).flatten := by
          simpa using hdmem.2
        have hdn : d ∈ tasks.map Prod.fst :=
          (depsF_spec (tasks.map Prod.fst) deps hkeys hvals m).2 d hd1
        have hrd : rank d < rank m := hrank m d hd1
        exact hd2 (ihk d hdn (by omega))
    exact hcover (rank n + 1) n hn (by omega)

theorem alookupD_mem_imp {α : Type} {m : List (String × List α)} {n : String} {d : α}
    (h : d ∈ alookupD m n []) : ∃ l, alookup m n = some l ∧ d ∈ l := by
  rw [alookupD] at h
  cases hl : alookup m n with
  | none => rw [hl] at h; simp at h
  | some l =>
    rw [hl] at h
    exact ⟨l, rfl, by simpa using h⟩

/-- Claim C5, witness: the seed-plus-diamond demo set is acyclic (c5Rank
decreases along every dependency) and its computed plan satisfies the
partition and closure properties. -/
theorem c5_tiers_partition_witness :
    buildPlan c5Tasks = .ok c5Plan ∧
    (c5Plan.tiers.flatten.Nodup ∧
     (∀ n, n ∈ c5Plan.tiers.flatten ↔ n ∈ c5Tasks.map Prod.fst) ∧
     (∀ i t, t ∈ c5Plan.tiers.getD i [] → ∀ d ∈ alookupD c5Plan.dependencies t [],
        d ∈ (c5Plan.tiers.take i).flatten)) := by
  have hplan : buildPlan c5Tasks = .ok c5Plan := by decide
  have hrank : ∀ n d, d ∈ alookupD c5Plan.dependencies n [] → c5Rank d < c5Rank n := by
    intro n d hd
    obtain ⟨l, hl, hdl⟩ := alookupD_mem_imp hd
    have hmem := alookup_mem hl
    have hall : ∀ nd ∈ c5Plan.dependencies, ∀ x ∈ nd.2, c5Rank x < c5Rank nd.1 := by
      decide
    exact hall (n, l) hmem d hdl
  exact ⟨hplan, c5_tiers_partition c5Tasks c5Plan c5Rank (by decide) (by decide)
    hplan hrank⟩

/-! ### Sequential Kahn sort and cycle detection -/

theorem sortStep (names : List String) (deps : List (String × List String))
    (hnames : names.Nodup) (hkeys : deps.map Prod.fst = names)
    (hvals : ∀ nd ∈ deps, nd.2.Nodup ∧ ∀ d ∈ nd.2, d ∈ names)
    (S sorted queue : List String) (deg : String → Int) (t : String)
    (hcyc : CycleWitness names (fun n => alookupD deps n []) S)
    (inv : SortInv names (fun n => alookupD deps n []) S sorted (t :: queue) deg) :
    SortInv names (fun n => alookupD deps n []) S (sorted ++ [t])
      (processTask (mkDependents names deps) t (deg, queue)).2
      (processTask (mkDependents names deps) t (deg, queue)).1 := by
  have hkeysnd : (deps.map Prod.fst).Nodup := by rw [hkeys]; exact hnames
  have hvnd : ∀ nd, nd ∈ deps → nd.2.Nodup := fun nd h => (hvals nd h).1
  have hdnodup := dependentsOf_nodup names deps hkeysnd hvnd t
  obtain ⟨p1, p2⟩ := processTask_spec (mkDependents names deps) t deg queue hdnodup
  have hbase : ((sorted ++ [t]) ++ queue).Nodup := by
    have h0 := inv.nodup
    rw [← List.append_cons]
    exact h0
  have htname : t ∈ names := inv.sub t (by
    exact List.mem_append_right _ (List.mem_cons_self _ _))
  have htnotsorted : t ∉ sorted := by
    have h0 := inv.nodup
    rw [List.nodup_append] at h0
    intro hc
    exact h0.2.2 hc (List.mem_cons_self _ _)
  have hdepT_names : ∀ n, n ∈ alookupD (mkDependents names deps) t [] → n ∈ names := by
    intro n hn
    have := (mem_dependentsOf names deps hkeysnd hvnd t n).mp hn
    rw [← hkeys]
    exact this.2.1
  have hdepT_char : ∀ n, n ∈ names →
      (n ∈ alookupD (mkDependents names deps) t [] ↔ t ∈ alookupD deps n []) := by
    intro n hn
    rw [mem_dependentsOf names deps hkeysnd hvnd t n]
    have hnk : n ∈ deps.map Prod.fst := by rw [hkeys]; exact hn
    constructor
    · rintro ⟨-, -, h⟩
      exact h
    · intro h
      exact ⟨htname, hnk, h⟩
  have hmemLeAll : ∀ n ∈ (sorted ++ [t]) ++ queue, deg n ≤ 0 := by
    intro n hn
    apply inv.memLe
    rw [← List.append_cons] at hn
    exact hn
  have hdegLb2 : ∀ n ∈ names,
      (((alookupD deps n []).filter (fun d => d ∉ sorted ++ [t])).length : Int) ≤
        (processTask (mkDependents names deps) t (deg, queue)).1 n := by
    intro n hn
    rw [p1 n]
    by_cases hmem : n ∈ alookupD (mkDependents names deps) t []
    · rw [if_pos hmem]
      have htd : t ∈ alookupD deps n [] := (hdepT_char n hn).mp hmem
      have hdl := filter_diff_length (alookupD deps n []) sorted [t]
        (by intro d hd; rw [List.mem_singleton.mp hd]; exact htnotsorted)
      have hone : ((alookupD deps n []).filter (fun d => d ∈ [t])).length = 1 := by
        have hcg : (alookupD deps n []).filter (fun d => d ∈ [t]) =
            (alookupD deps n []).filter (fun d => d = t) := by
          apply List.filter_congr
          intro d _
          simp
        rw [hcg]
        exact length_filter_eq_one _ t (depsF_spec names deps hkeys hvals n).1 htd
      have hlb := inv.degLb n hn
      simp only at hlb
      rw [hone] at hdl
      omega
    · rw [if_neg hmem]
      have htd : t ∉ alookupD deps n [] := fun hc => hmem ((hdepT_char n hn).mpr hc)
      have hcg : (alookupD deps n []).filter (fun d => d ∉ sorted ++ [t]) =
          (alookupD deps n []).filter (fun d => d ∉ sorted) := by
        apply List.filter_congr
        intro d hd
        have hdt : d ≠ t := fun hc => htd (hc ▸ hd)
        simp [List.mem_append, hdt]
      rw [hcg]
      have hlb := inv.degLb n hn
      simpa using hlb
  refine ⟨?_, ?_, hdegLb2, ?_, ?_⟩
  · rw [p2, ← List.append_assoc]
    rw [List.nodup_append]
    refine ⟨hbase, hdnodup.filter _, ?_⟩
    intro a ha hb
    have h1 := hmemLeAll a ha
    have h2 : deg a = 1 := by simpa using (List.mem_filter.mp hb).2
    omega
  · intro n hn
    rw [p2, ← List.append_assoc] at hn
    rcases List.mem_append.mp hn with h1 | h1
    · apply inv.sub
      rw [List.append_cons]
      exact h1
    · exact hdepT_names n (List.mem_filter.mp h1).1
  · intro n hn
    rw [p2, ← List.append_assoc] at hn
    rcases List.mem_append.mp hn with h1 | h1
    · have h2 := hmemLeAll n h1
      rw [p1 n]
      split <;> omega
    · have h2 : deg n = 1 := by simpa using (List.mem_filter.mp h1).2
      have h3 := (List.mem_filter.mp h1).1
      rw [p1 n, if_pos h3]
      omega
  · intro n hn
    rw [p2, ← List.append_assoc] at hn
    rcases List.mem_append.mp hn with h1 | h1
    · apply inv.avoid
      rw [List.append_cons]
      exact h1
    · intro hnS
      have h3 := (List.mem_filter.mp h1).1
      have h2 : deg n = 1 := by simpa using (List.mem_filter.mp h1).2
      have hnn : n ∈ names := hdepT_names n h3
      obtain ⟨d, hd1, hd2⟩ := hcyc.2.2 n hnS
      have hdnot : d ∉ sorted ++ [t] := by
        intro hc
        rcases List.mem_append.mp hc with hc1 | hc1
        · exact inv.avoid d (List.mem_append_left _ hc1) hd2
        · have hdt : d = t := by simpa using hc1
          exact inv.avoid t (List.mem_append_right _ (List.mem_cons_self _ _))
            (hdt ▸ hd2)
      have hpos : 0 < ((alookupD deps n []).filter
          (fun d => d ∉ sorted ++ [t])).length := by
        apply List.length_pos.mpr
        intro hc
        rw [List.filter_eq_nil_iff] at hc
        exact (hc d (by simpa using hd1)) (by simpa using hdnot)
      have hlb := hdegLb2 n hnn
      rw [p1 n, if_pos h3] at hlb
      omega

theorem sortLoop_avoid (names : List String) (deps : List (String × List String))
    (hnames : names.Nodup) (hkeys : deps.map Prod.fst = names)
    (hvals : ∀ nd ∈ deps, nd.2.Nodup ∧ ∀ d ∈ nd.2, d ∈ names)
    (S : List String)
    (hcyc : CycleWitness names (fun n => alookupD deps n []) S) :
    ∀ (fuel : Nat) (queue : List String) (deg : String → Int) (sorted : List String),
      SortInv names (fun n => alookupD deps n []) S sorted queue deg →
      ((sortLoop (mkDependents names deps) fuel queue deg sorted).Nodup ∧
       (∀ n ∈ sortLoop (mkDependents names deps) fuel queue deg sorted, n ∈ names) ∧
       (∀ n ∈ sortLoop (mkDependents names deps) fuel queue deg sorted, n ∉ S)) := by
  intro fuel
  induction fuel with
  | zero =>
    intro queue deg sorted inv
    rw [sortLoop]
    exact ⟨(List.nodup_append.mp inv.nodup).1,
      fun n hn => inv.sub n (List.mem_append_left _ hn),
      fun n hn => inv.avoid n (List.mem_append_left _ hn)⟩
  | succ fuel ih =>
    intro queue deg sorted inv
    cases queue with
    | nil =>
      rw [sortLoop]
      exact ⟨(List.nodup_append.mp inv.nodup).1,
        fun n hn => inv.sub n (List.mem_append_left _ hn),
        fun n hn => inv.avoid n (List.mem_append_left _ hn)⟩
    | cons t q2 =>
      rw [sortLoop]
      exact ih _ _ _ (sortStep names deps hnames hkeys hvals S sorted q2 deg t hcyc inv)

/-- Claim C4, amended: when the computed dependency graph contains a cycle
(witnessed by a nonempty set of task names each depending on another member
of the set), the run fails before any task executes with the generic
RuntimeError used by _build_graph_and_plan; the error does not name the
implicated tasks, and the worker pool shutdown path is not reached. -/
theorem c4_cycle_detected_before_execution (tasks : Tasks)
    (deps : List (String × List String)) (ips : List (String × String))
    (S : List String)
    (hkeysnd : (tasks.map Prod.fst).Nodup)
    (hparams : ∀ p ∈ tasks, p.2.params.Nodup)
    (hbd : buildDeps (tasks.map Prod.fst) tasks = .ok (deps, ips))
    (hcyc : CycleWitness (tasks.map Prod.fst) (fun n => alookupD deps n []) S) :
    buildPlan tasks = .error (.runtimeError cycleMsg) ∧
    (∀ (store0 : List (String × Value)) (sched : List String)
      (ack : String → Except Exc Value),
      aexit none tasks store0 sched ack =
        ⟨some (.runtimeError cycleMsg), false, 0, none⟩) := by
  obtain ⟨hkeys, hvals⟩ :=
    buildDeps_spec (tasks.map Prod.fst) tasks deps ips hparams hbd
  have hfid : ∀ n, (alookupD deps n []).filter
      (fun d => decide (d ∉ ([] : List String))) = alookupD deps n [] := by
    intro n
    rw [List.filter_eq_self]
    intro d _
    simp
  have hinv0 : SortInv (tasks.map Prod.fst) (fun n => alookupD deps n []) S []
      ((tasks.map Prod.fst).filter (fun n => ((alookupD deps n []).length : Int) = 0))
      (fun n => ((alookupD deps n []).length : Int)) := by
    refine ⟨?_, ?_, ?_, ?_, ?_⟩
    · simp only [List.nil_append]
      exact hkeysnd.filter _
    · intro n hn
      simp only [List.nil_append] at hn
      exact (List.mem_filter.mp hn).1
    · intro n _
      show (((alookupD deps n []).filter (fun d => d ∉ ([] : List String))).length : Int)
        ≤ ((alookupD deps n []).length : Int)
      rw [hfid n]
    · intro n hn
      simp only [List.nil_append] at hn
      have h0 := (List.mem_filter.mp hn).2
      simp only [decide_eq_true_eq] at h0
      show ((alookupD deps n []).length : Int) ≤ 0
      omega
    · intro n hn
      simp only [List.nil_append] at hn
      intro hnS
      have h0 := (List.mem_filter.mp hn).2
      simp only [decide_eq_true_eq] at h0
      have hlen : (alookupD deps n []).length = 0 := by omega
      have hnil := List.length_eq_zero.mp hlen
      obtain ⟨d, hd1, -⟩ := hcyc.2.2 n hnS
      have hd1b : d ∈ alookupD deps n [] := hd1
      rw [hnil] at hd1b
      exact absurd hd1b (by simp)
  obtain ⟨hsnd, hssub, hsavoid⟩ := sortLoop_avoid (tasks.map Prod.fst) deps hkeysnd
    hkeys hvals S hcyc (tasks.length + 1)
    ((tasks.map Prod.fst).filter (fun n => ((alookupD deps n []).length : Int) = 0))
    (fun n => ((alookupD deps n []).length : Int)) [] hinv0
  obtain ⟨s, hsS⟩ : ∃ s, s ∈ S := by
    cases S with
    | nil => exact absurd rfl hcyc.1
    | cons s rest => exact ⟨s, List.mem_cons_self _ _⟩
  have hsn : s ∈ tasks.map Prod.fst := hcyc.2.1 s hsS
  have hslt : (sortLoop (mkDependents (tasks.map Prod.fst) deps) (tasks.length + 1)
      ((tasks.map Prod.fst).filter (fun n => ((alookupD deps n []).length : Int) = 0))
      (fun n => ((alookupD deps n []).length : Int)) []).length <
      (tasks.map Prod.fst).length := by
    have hle := nodup_length_le _ ((tasks.map Prod.fst).erase s) hsnd (by
      intro x hx
      have hxne : x ≠ s := fun hc => hsavoid x hx (hc ▸ hsS)
      exact (List.mem_erase_of_ne hxne).mpr (hssub x hx))
    have herase : ((tasks.map Prod.fst).erase s).length =
        (tasks.map Prod.fst).length - 1 := List.length_erase_of_mem hsn
    have hpos : 0 < (tasks.map Prod.fst).length := List.length_pos_of_mem hsn
    omega
  have hne : (sortLoop (mkDependents (tasks.map (fun t => t.1)) deps)
      (tasks.length + 1)
      ((tasks.map (fun t => t.1)).filter
        (fun n => ((alookupD deps n []).length : Int) = 0))
      (fun n => ((alookupD deps n []).length : Int)) []).length ≠ tasks.length := by
    have hmap : (tasks.map (fun t => t.1)) = tasks.map Prod.fst := rfl
    rw [hmap]
    rw [List.length_map] at hslt
    omega
  have hbp : buildPlan tasks = .error (.runtimeError cycleMsg) := by
    simp only [buildPlan]
    have hbd2 : buildDeps (tasks.map (fun t => t.1)) tasks = .ok (deps, ips) := hbd
    rw [hbd2]
    simp only [if_pos hne]
  refine ⟨hbp, ?_⟩
  intro store0 sched ack
  rw [aexit, hbp]

/-- Witness for the amended C4 claim theorem: the two-task cycle xx <-> yy
satisfies every hypothesis, and the run fails with the constant RuntimeError
before anything executes. -/
theorem c4_cycle_detected_before_execution_witness :
    buildDeps (c4Tasks.map Prod.fst) c4Tasks =
      .ok ([("xx", ["yy"]), ("yy", ["xx"])], []) ∧
    CycleWitness (c4Tasks.map Prod.fst)
      (fun n => alookupD [("xx", ["yy"]), ("yy", ["xx"])] n []) ["xx", "yy"] ∧
    buildPlan c4Tasks = .error (.runtimeError cycleMsg) ∧
    aexit none c4Tasks [] [] (fun _ => .ok .unit) =
      ⟨some (.runtimeError cycleMsg), false, 0, none⟩ := by
  have hbd : buildDeps (c4Tasks.map Prod.fst) c4Tasks =
      .ok ([("xx", ["yy"]), ("yy", ["xx"])], []) := by decide
  have hcyc : CycleWitness (c4Tasks.map Prod.fst)
      (fun n => alookupD [("xx", ["yy"]), ("yy", ["xx"])] n []) ["xx", "yy"] := by
    refine ⟨by decide, by decide, ?_⟩
    intro s hs
    rcases List.mem_cons.mp hs with h | h
    · subst h
      exact ⟨"yy", show ("yy" : String) ∈
        alookupD [("xx", ["yy"]), ("yy", ["xx"])] "xx" [] by decide, by decide⟩
    · have h2 : s = "yy" := by simpa using h
      subst h2
      exact ⟨"xx", show ("xx" : String) ∈
        alookupD [("xx", ["yy"]), ("yy", ["xx"])] "yy" [] by decide, by decide⟩
  have hmain := c4_cycle_detected_before_execution c4Tasks
    [("xx", ["yy"]), ("yy", ["xx"])] [] ["xx", "yy"] (by decide) (by decide)
    hbd hcyc
  exact ⟨hbd, hcyc, hmain.1, hmain.2 [] [] (fun _ => .ok .unit)⟩

end Wove
